import Mathlib

/-!
Verification of the dialga/knurdy core: the KDL-to-value decoding bridge
(`knurdy`) and the blueprint library with inheritance/merge resolution and
entity fabrication (`dialga`).

The Rust sources are shallowly embedded: pure Rust functions become Lean
functions on explicit data; hash maps become association lists (iteration
order is never semantically relevant to the embedded operations); machine
integers become `Int` with explicit range checks mirroring `TryFrom`;
fallible code returns `Except`.  The blueprint `lookup` recursion, which in
Rust runs on the call stack, is embedded with an explicit fuel parameter and
a distinguished `outOfFuel` result standing for nontermination / stack
overflow; the fuel supplied by `lookup` is proved sufficient.
-/

/-- Opaque carrier for an `f64` payload (bit pattern).  Float payloads are
only moved around by the embedded code, never computed with, so the numeric
interpretation is irrelevant. -/
structure F64 where
  bits : Nat
deriving DecidableEq

/-- Models the lossy `f64 as f32` cast in `KdlLiteralDeser::deserialize_f32`.
No claim inspects the numeric value of the cast result, only that the value
is passed through, so the cast is carried by the same bit-pattern type. -/
def f32ofF64 (x : F64) : F64 := x

/-- `knurdy::KdlLiteral` (knurdy/src/lib.rs): a raw literal value. -/
inductive KdlLiteral where
  | str (s : String)
  | int (i : Int)
  | float (f : F64)
  | bool (b : Bool)
  | null
deriving DecidableEq

/-- `knurdy::KdlAnnotatedLiteral`: a literal plus an optional type
annotation string (the field is called `annotation` in the source). -/
structure KdlAnnotatedLiteral where
  ann : Option String
  literal : KdlLiteral
deriving DecidableEq

/-- `knurdy::KdlNode`: name, positional arguments, named properties,
optional children block.  Properties (an `AHashMap` in the source) are
embedded as an association list; `children = none` is distinct from
`children = some []`. -/
inductive KdlNode where
  | mk (name : String) (arguments : List KdlAnnotatedLiteral)
       (properties : List (String × KdlAnnotatedLiteral))
       (children : Option (List KdlNode))

def KdlNode.name : KdlNode → String
  | .mk n _ _ _ => n

def KdlNode.arguments : KdlNode → List KdlAnnotatedLiteral
  | .mk _ a _ _ => a

def KdlNode.properties : KdlNode → List (String × KdlAnnotatedLiteral)
  | .mk _ _ p _ => p

def KdlNode.children : KdlNode → Option (List KdlNode)
  | .mk _ _ _ c => c

/-- `dialga::blueprint::MergeMode`. -/
inductive MergeMode where
  | merge
  | clobber
deriving DecidableEq

/-- `dialga::blueprint::RawBlueprint`: name, optional inherit parent,
merge mode, component nodes. -/
structure RawBlueprint where
  name : String
  inherit : Option String
  merge : MergeMode
  components : List KdlNode

/-- `dialga::blueprint::Blueprint`: a resolved blueprint. -/
structure Blueprint where
  name : String
  components : List KdlNode

/-- `dialga::blueprint::BlueprintLibrary`: the `AHashMap<SmolStr,
RawBlueprint>` is embedded as a list of blueprints; the map key always
equals the stored blueprint's `name` field in the source (insertion uses
`blueprint.name` as the key and merging never changes it), so the list of
values carries the whole map. -/
def BlueprintLibrary := List RawBlueprint

/-- Map lookup `self.prints.get(name)`: first entry with the given name. -/
def libGet : BlueprintLibrary → String → Option RawBlueprint
  | [], _ => none
  | e :: rest, n => if e.name = n then some e else libGet rest n

/-- The key set of the library map. -/
def libKeys (lib : BlueprintLibrary) : List String := lib.map (·.name)

/-- One step of the replace-or-append component merge: the body of the
`for comp in ...` loops in `BlueprintLibrary::insert_raw` (Merge arm) and in
`BlueprintLibrary::lookup` (inheritance overlay).  Replaces the first
existing component with the same node name, else appends. -/
def mergeOne : List KdlNode → KdlNode → List KdlNode
  | [], c => [c]
  | o :: rest, c => if o.name = c.name then c :: rest else o :: mergeOne rest c

/-- The whole replace-or-append loop: fold every new component into the
old list. -/
def mergeComponents (old new : List KdlNode) : List KdlNode :=
  new.foldl mergeOne old

/-- `BlueprintLibrary::insert_raw`: no entry under the name stores the
blueprint; an existing entry is clobbered or component-merged per the NEW
blueprint's merge mode. -/
def insert_raw : BlueprintLibrary → RawBlueprint → BlueprintLibrary
  | [], bp => [bp]
  | e :: rest, bp =>
    if e.name = bp.name then
      (match bp.merge with
        | .clobber => bp
        | .merge => { e with components := mergeComponents e.components bp.components }) :: rest
    else
      e :: insert_raw rest bp

/-- `dialga::blueprint::BlueprintLookupError`. -/
inductive BlueprintLookupError where
  | notFound (name : String)
  | inheritanceLoop (path : List String)
  | inheriteeNotFound (child missing : String)

/-- Outcome of the embedded `lookup` recursion.  `outOfFuel` models the
recursion exceeding its fuel (i.e. nontermination / stack overflow in the
source); it is proved unreachable for the fuel `lookup` supplies. -/
inductive LookupResult where
  | ok (bp : Blueprint)
  | err (e : BlueprintLookupError)
  | outOfFuel

/-- The inner `recurse` of `BlueprintLibrary::lookup`, with explicit fuel.
`path` is the vector of ancestor names visited so far.  The source finds the
first index of `parent_name` in `path` and reports `path[ono..]` plus the
repeated parent; the suffix from the first occurrence is exactly
`dropWhile (!= parent)`. -/
def recurse (lib : BlueprintLibrary) : Nat → String → List String → LookupResult
  | 0, _, _ => .outOfFuel
  | fuel + 1, name, path =>
    match libGet lib name with
    | none =>
      .err (match path.getLast? with
        | none => .notFound name
        | some last => .inheriteeNotFound last name)
    | some raw =>
      match raw.inherit with
      | none => .ok ⟨raw.name, raw.components⟩
      | some parent =>
        if parent ∈ path then
          .err (.inheritanceLoop ((path.dropWhile (fun k => k != parent)) ++ [parent]))
        else
          match recurse lib fuel parent (path ++ [parent]) with
          | .ok pb => .ok ⟨pb.name, mergeComponents pb.components raw.components⟩
          | other => other

/-- `BlueprintLibrary::lookup`: run the recursion from an empty path.  The
fuel `|library| + 2` is proved sufficient (`lookup_ne_outOfFuel`). -/
def lookup (lib : BlueprintLibrary) (name : String) : LookupResult :=
  recurse lib (lib.length + 2) name []

/-- `x` is present in the library and inherits from `y`. -/
def gEdge (lib : BlueprintLibrary) (x y : String) : Bool :=
  match libGet lib x with
  | some raw => raw.inherit == some y
  | none => false

/-- `linkedB lib c first`: every element of `c` inherits from the next one,
and the last element inherits from `first`. -/
def linkedB (lib : BlueprintLibrary) : List String → String → Bool
  | [], _ => true
  | [x], first => gEdge lib x first
  | x :: y :: rest, first => gEdge lib x y && linkedB lib (y :: rest) first

/-- `c` is a nonempty duplicate-free cycle of `inherit` edges in `lib`. -/
def isCycleB (lib : BlueprintLibrary) : List String → Bool
  | [] => false
  | h :: t => decide (h :: t).Nodup && linkedB lib (h :: t) h

/-- The loop path that `lookup` reports when started at the head of the
cycle `c`: the rotation of `c` by one, closed by repeating its first
element. -/
def loopPathOf : List String → List String
  | [] => []
  | c0 :: t => (t ++ [c0]) ++ [(t ++ [c0]).headD c0]

/-- The inheritance-resolution relation underlying a successful `lookup`:
`Resolves lib n l bp` says the entry `n` resolves to blueprint `bp` with `l`
the chain of strict ancestors (nearest first), no ancestor repeating and
none equal to `n`. -/
inductive Resolves (lib : BlueprintLibrary) : String → List String → Blueprint → Prop where
  | base (n : String) (raw : RawBlueprint) :
      libGet lib n = some raw → raw.inherit = none →
      Resolves lib n [] ⟨raw.name, raw.components⟩
  | step (n p : String) (raw : RawBlueprint) (l : List String) (pb : Blueprint) :
      libGet lib n = some raw → raw.inherit = some p →
      Resolves lib p l pb → n ∉ p :: l →
      Resolves lib n (p :: l) ⟨pb.name, mergeComponents pb.components raw.components⟩

/-- Normalize every stored merge mode (`lookup` never reads them). -/
def mapMergeAll (lib : BlueprintLibrary) : BlueprintLibrary :=
  lib.map (fun e => { e with merge := .merge })

/-- Replace the merge mode of the entries named `n`. -/
def setMergeOf (lib : BlueprintLibrary) (n : String) (m : MergeMode) : BlueprintLibrary :=
  lib.map (fun e => if e.name = n then { e with merge := m } else e)

/-- Component node names are pairwise distinct. -/
def namesNodup (cs : List KdlNode) : Prop := (cs.map KdlNode.name).Nodup

instance (cs : List KdlNode) : Decidable (namesNodup cs) := by
  unfold namesNodup; infer_instance

instance {ε α : Type} [DecidableEq ε] [DecidableEq α] : DecidableEq (Except ε α) := fun x y =>
  match x, y with
  | .ok a, .ok b => decidable_of_iff (a = b) (by simp)
  | .error e, .error f => decidable_of_iff (e = f) (by simp)
  | .ok _, .error _ => isFalse (fun hh => Except.noConfusion hh)
  | .error _, .ok _ => isFalse (fun hh => Except.noConfusion hh)

/-- The component-merge result as the claims/spec describe it: the old list
with each component whose name occurs in the new list replaced in place by
the like-named new component, then the genuinely new components appended in
order.  Proved equal to the source-derived `mergeComponents` fold when both
sides have duplicate-free names. -/
def mergeSpec (old new : List KdlNode) : List KdlNode :=
  old.map (fun o => ((new.find? (fun c => c.name == o.name)).getD o)) ++
    new.filter (fun c => !(old.any (fun o => o.name == c.name)))

/-! ## Literal decoder (knurdy/src/literal.rs) -/

/-- `serde::de::Unexpected`, restricted to the variants the embedded code
constructs. -/
inductive Unexpected where
  | str (s : String)
  | float (f : F64)
  | bool (b : Bool)
  | unit
  | other (s : String)
  | unsigned (n : Int)
  | unitVariant
deriving DecidableEq

/-- `knurdy::DeError`.  `invalidType u exp` embeds
`DeError::invalid_type(u, &visitor)` (serde's default renders it through
`Error::custom` into `VisitorError`; the rendering is injective on the
pairs the code produces, so it is kept structured here).  `exp` is the
requesting visitor's `expecting` description.  `intSize` and `invalidChar`
drop the wrapped conversion-error payloads, which carry only display
text. -/
inductive DeError where
  | visitorError (s : String)
  | intSize
  | invalidChar
  | base64Error
  | byteAnnotationLen
  | charAnnotationLen
  | mismatchedType (s : String)
  | invalidType (u : Unexpected) (exp : String)
deriving DecidableEq

/-- `KdlLiteral::unexpected` (knurdy/src/lib.rs). -/
def unexpectedOf : KdlLiteral → Unexpected
  | .str s => .str s
  | .int _ => .other "int"
  | .float f => .float f
  | .bool b => .bool b
  | .null => .unit

/-- UTF-8 bytes of a string, as numeric byte values. -/
def utf8Bytes (s : String) : List Nat :=
  (s.data.flatMap String.utf8EncodeChar).map (·.toNat)

/-- The `deser_int_literal!` macro body for an integer width with bounds
`[lo, hi]`: an integer literal is range-converted (`TryFrom<i64>`), anything
else is an invalid-type error against the width's visitor. -/
def deserIntLit (lo hi : Int) (exp : String) : KdlLiteral → Except DeError Int
  | .int it => if lo ≤ it ∧ it ≤ hi then .ok it else .error .intSize
  | o => .error (.invalidType (unexpectedOf o) exp)

def litDeser_u8 : KdlLiteral → Except DeError Int := deserIntLit 0 255 "u8"
def litDeser_u16 : KdlLiteral → Except DeError Int := deserIntLit 0 65535 "u16"
def litDeser_u32 : KdlLiteral → Except DeError Int := deserIntLit 0 4294967295 "u32"
def litDeser_u64 : KdlLiteral → Except DeError Int := deserIntLit 0 18446744073709551615 "u64"
def litDeser_i8 : KdlLiteral → Except DeError Int := deserIntLit (-128) 127 "i8"
def litDeser_i16 : KdlLiteral → Except DeError Int := deserIntLit (-32768) 32767 "i16"
def litDeser_i32 : KdlLiteral → Except DeError Int := deserIntLit (-2147483648) 2147483647 "i32"
def litDeser_i64 : KdlLiteral → Except DeError Int :=
  deserIntLit (-9223372036854775808) 9223372036854775807 "i64"

/-- A valid Unicode scalar value (the success condition of
`char::try_from(u32)`). -/
def isUnicodeScalar (n : Int) : Prop := n < 0xD800 ∨ (0xE000 ≤ n ∧ n < 0x110000)

instance (n : Int) : Decidable (isUnicodeScalar n) := by
  unfold isUnicodeScalar; infer_instance

/-- `KdlLiteralDeser::deserialize_char`: integer → `u32` → `char`, each
conversion checked. -/
def litDeser_char : KdlLiteral → Except DeError Char
  | .int it =>
    if 0 ≤ it ∧ it ≤ 4294967295 then
      if isUnicodeScalar it then .ok (Char.ofNat it.toNat) else .error .invalidChar
    else .error .intSize
  | o => .error (.invalidType (unexpectedOf o) "char")

def litDeser_f32 : KdlLiteral → Except DeError F64
  | .float f => .ok (f32ofF64 f)
  | o => .error (.invalidType (unexpectedOf o) "f32")

def litDeser_f64 : KdlLiteral → Except DeError F64
  | .float f => .ok f
  | o => .error (.invalidType (unexpectedOf o) "f64")

def litDeser_bool : KdlLiteral → Except DeError Bool
  | .bool b => .ok b
  | o => .error (.invalidType (unexpectedOf o) "bool")

def litDeser_str : KdlLiteral → Except DeError String
  | .str s => .ok s
  | o => .error (.invalidType (unexpectedOf o) "str")

def litDeser_string : KdlLiteral → Except DeError String := litDeser_str

def litDeser_bytes : KdlLiteral → Except DeError (List Nat)
  | .str s => .ok (utf8Bytes s)
  | o => .error (.invalidType (unexpectedOf o) "bytes")

def litDeser_unit : KdlLiteral → Except DeError Unit
  | .null => .ok ()
  | o => .error (.invalidType (unexpectedOf o) "unit")

/-- `KdlLiteralDeser::deserialize_seq` (and map/struct, which forward to
it): a single literal is never a sequence or map; always an invalid-type
error against the requesting visitor. -/
def litDeser_seqErr (exp : String) (l : KdlLiteral) : Except DeError α :=
  .error (.invalidType (unexpectedOf l) exp)

def litDeser_map (exp : String) (l : KdlLiteral) : Except DeError α := litDeser_seqErr exp l

def litDeser_struct (exp : String) (l : KdlLiteral) : Except DeError α := litDeser_map exp l

/-- `KdlLiteralDeser::deserialize_u8` as invoked with serde's `char`
visitor (this happens in the fallback arm of
`KdlAnnotatedLiteralDeser::deserialize_char`).  The char visitor implements
only `visit_char`/`visit_str`, so `visit_u8` falls through serde's default
chain to `visit_u64`, which rejects the integer:
an in-range integer becomes `invalid_type(Unsigned(v), char)`, an
out-of-range one fails the earlier `try_into` with `IntSize`, and a
non-integer literal is rejected by `deserialize_u8` itself. -/
def litDeser_u8CharVisitor : KdlLiteral → Except DeError Char
  | .int it =>
    if 0 ≤ it ∧ it ≤ 255 then .error (.invalidType (.unsigned it) "char")
    else .error .intSize
  | o => .error (.invalidType (unexpectedOf o) "char")

/-- Value of one base64 alphabet character. -/
def base64CharVal (c : Char) : Option Nat :=
  if 'A' ≤ c ∧ c ≤ 'Z' then some (c.toNat - 65)
  else if 'a' ≤ c ∧ c ≤ 'z' then some (c.toNat - 97 + 26)
  else if '0' ≤ c ∧ c ≤ '9' then some (c.toNat - 48 + 52)
  else if c = '+' then some 62
  else if c = '/' then some 63
  else none

/-- Body of the base64 decoder: four characters at a time, padding only at
the end. -/
def base64DecodeCore : List Char → Except DeError (List Nat)
  | [] => .ok []
  | [a, b, '=', '='] =>
    match base64CharVal a, base64CharVal b with
    | some va, some vb =>
      if vb % 16 = 0 then .ok [va * 4 + vb / 16] else .error .base64Error
    | _, _ => .error .base64Error
  | [a, b, c, '='] =>
    match base64CharVal a, base64CharVal b, base64CharVal c with
    | some va, some vb, some vc =>
      if vc % 4 = 0 then .ok [va * 4 + vb / 16, (vb % 16) * 16 + vc / 4]
      else .error .base64Error
    | _, _, _ => .error .base64Error
  | a :: b :: c :: d :: rest =>
    match base64CharVal a, base64CharVal b, base64CharVal c, base64CharVal d with
    | some va, some vb, some vc, some vd =>
      match base64DecodeCore rest with
      | .ok tail => .ok ([va * 4 + vb / 16, (vb % 16) * 16 + vc / 4, (vc % 4) * 64 + vd] ++ tail)
      | .error e => .error e
    | _, _, _, _ => .error .base64Error
  | _ => .error .base64Error

/-- Model of the external `base64` crate's `decode` (an out-of-scope
collaborator; no claim inspects its output). -/
def base64Decode (s : String) : Except DeError (List Nat) := base64DecodeCore s.toList

/-! ### Annotated-literal decoder (`KdlAnnotatedLiteralDeser`) -/

def annLit_u16 (al : KdlAnnotatedLiteral) : Except DeError Int := litDeser_u16 al.literal
def annLit_u32 (al : KdlAnnotatedLiteral) : Except DeError Int := litDeser_u32 al.literal
def annLit_u64 (al : KdlAnnotatedLiteral) : Except DeError Int := litDeser_u64 al.literal
def annLit_i8 (al : KdlAnnotatedLiteral) : Except DeError Int := litDeser_i8 al.literal
def annLit_i16 (al : KdlAnnotatedLiteral) : Except DeError Int := litDeser_i16 al.literal
def annLit_i32 (al : KdlAnnotatedLiteral) : Except DeError Int := litDeser_i32 al.literal
def annLit_i64 (al : KdlAnnotatedLiteral) : Except DeError Int := litDeser_i64 al.literal
def annLit_f32 (al : KdlAnnotatedLiteral) : Except DeError F64 := litDeser_f32 al.literal
def annLit_f64 (al : KdlAnnotatedLiteral) : Except DeError F64 := litDeser_f64 al.literal
def annLit_bool (al : KdlAnnotatedLiteral) : Except DeError Bool := litDeser_bool al.literal
def annLit_str (al : KdlAnnotatedLiteral) : Except DeError String := litDeser_str al.literal
def annLit_string (al : KdlAnnotatedLiteral) : Except DeError String := litDeser_string al.literal
def annLit_unit (al : KdlAnnotatedLiteral) : Except DeError Unit := litDeser_unit al.literal

def annLit_map (exp : String) (al : KdlAnnotatedLiteral) : Except DeError α :=
  litDeser_map exp al.literal

def annLit_struct (exp : String) (al : KdlAnnotatedLiteral) : Except DeError α :=
  annLit_map exp al

/-- `KdlAnnotatedLiteralDeser::deserialize_u8`: a `(byte)`-annotated string
must be exactly one byte long; everything else (including non-annotated
strings) falls through to the plain integer rule. -/
def annLit_u8 (al : KdlAnnotatedLiteral) : Except DeError Int :=
  match al.literal with
  | .str s =>
    if al.ann = some "byte" then
      match utf8Bytes s with
      | [b] => .ok (Int.ofNat b)
      | _ => .error .byteAnnotationLen
    else litDeser_u8 (.str s)
  | other => litDeser_u8 other

/-- `KdlAnnotatedLiteralDeser::deserialize_char`: a `(char)`-annotated
string must be exactly one character long.  The fallback arm in the source
reads `KdlLiteralDeser(other).deserialize_u8(visitor)` — it forwards to
`deserialize_u8`, not `deserialize_char`, with the char visitor still in
hand; that behaviour is embedded faithfully via `litDeser_u8CharVisitor`. -/
def annLit_char (al : KdlAnnotatedLiteral) : Except DeError Char :=
  match al.literal with
  | .str s =>
    if al.ann = some "char" then
      match s.toList with
      | [c] => .ok c
      | _ => .error .charAnnotationLen
    else litDeser_u8CharVisitor (.str s)
  | other => litDeser_u8CharVisitor other

/-- `KdlAnnotatedLiteralDeser::deserialize_bytes`: the literal must be a
string; `(base64)` decodes it, otherwise its raw bytes are returned. -/
def annLit_bytes (al : KdlAnnotatedLiteral) : Except DeError (List Nat) :=
  match al.literal with
  | .str s => if al.ann = some "base64" then base64Decode s else .ok (utf8Bytes s)
  | o => .error (.invalidType (unexpectedOf o) "bytes")

/-- `KdlAnnotatedLiteralDeser::deserialize_enum`: result is the
`(variant, optional value)` pair handed to `visit_enum` — no annotation
demands a string literal naming a unit variant; an annotation names a
newtype variant whose payload is the literal itself. -/
def annLit_enum (exp : String) (al : KdlAnnotatedLiteral) :
    Except DeError (String × Option KdlLiteral) :=
  match al.ann with
  | none =>
    match al.literal with
    | .str s => .ok (s, none)
    | o => .error (.invalidType (unexpectedOf o) exp)
  | some a => .ok (a, some al.literal)

/-! ## Node decoder (knurdy/src/node.rs) -/

/-- The error message the `single_scalar!` macro builds for a shape. -/
def ssMsg (ty : String) : String :=
  "node that isn't exactly one argument deserializable as " ++ ty ++ " and nothing else"

/-- The `single_scalar!` macro body: a node with exactly one argument, no
properties and no children block forwards the request to its argument's
annotated-literal decoder; anything else is an invalid-type error. -/
def singleScalar (f : KdlAnnotatedLiteral → Except DeError α) (msg exp : String)
    (n : KdlNode) : Except DeError α :=
  match n.arguments, n.properties.isEmpty, n.children.isNone with
  | [it], true, true => f it
  | _, _, _ => .error (.invalidType (.other msg) exp)

def nodeDeser_u8 (n : KdlNode) : Except DeError Int := singleScalar annLit_u8 (ssMsg "u8") "u8" n
def nodeDeser_u16 (n : KdlNode) : Except DeError Int := singleScalar annLit_u16 (ssMsg "u16") "u16" n
def nodeDeser_u32 (n : KdlNode) : Except DeError Int := singleScalar annLit_u32 (ssMsg "u32") "u32" n
def nodeDeser_u64 (n : KdlNode) : Except DeError Int := singleScalar annLit_u64 (ssMsg "u64") "u64" n
def nodeDeser_i8 (n : KdlNode) : Except DeError Int := singleScalar annLit_i8 (ssMsg "i8") "i8" n
def nodeDeser_i16 (n : KdlNode) : Except DeError Int := singleScalar annLit_i16 (ssMsg "i16") "i16" n
def nodeDeser_i32 (n : KdlNode) : Except DeError Int := singleScalar annLit_i32 (ssMsg "i32") "i32" n
def nodeDeser_i64 (n : KdlNode) : Except DeError Int := singleScalar annLit_i64 (ssMsg "i64") "i64" n
def nodeDeser_char (n : KdlNode) : Except DeError Char :=
  singleScalar annLit_char (ssMsg "char") "char" n
def nodeDeser_bool (n : KdlNode) : Except DeError Bool :=
  singleScalar annLit_bool (ssMsg "bool") "bool" n
def nodeDeser_f32 (n : KdlNode) : Except DeError F64 := singleScalar annLit_f32 (ssMsg "f32") "f32" n
def nodeDeser_f64 (n : KdlNode) : Except DeError F64 := singleScalar annLit_f64 (ssMsg "f64") "f64" n
def nodeDeser_str (n : KdlNode) : Except DeError String :=
  singleScalar annLit_str (ssMsg "str") "str" n
def nodeDeser_string (n : KdlNode) : Except DeError String :=
  singleScalar annLit_string (ssMsg "string") "string" n
def nodeDeser_bytes (n : KdlNode) : Except DeError (List Nat) :=
  singleScalar annLit_bytes (ssMsg "bytes") "bytes" n

/-- `KdlNodeDeser::deserialize_enum`: same one-argument shape guard, then
the annotated literal's enum rule. -/
def nodeDeser_enum (exp : String) (n : KdlNode) : Except DeError (String × Option KdlLiteral) :=
  match n.arguments, n.properties.isEmpty, n.children.isNone with
  | [it], true, true => annLit_enum exp it
  | _, _, _ =>
    .error (.invalidType
      (.other "node that isn't exactly one argument deserializable as enum and nothing else") exp)

/-- `KdlNodeDeser::deserialize_map` / `deserialize_struct` common body:
any argument is an error; otherwise the visitor receives the snake-case
flag, the properties (in order) and the children.  `snek` is
`forwarding_to_map_from_struct`. -/
def nodeDeser_mapCore (snek : Bool) (exp : String)
    (onMap : Bool → List (String × KdlAnnotatedLiteral) → Option (List KdlNode) → Except DeError α)
    (n : KdlNode) : Except DeError α :=
  if n.arguments.isEmpty then onMap snek n.properties n.children
  else .error (.invalidType (.other "node with no arguments") exp)

def nodeDeser_map (exp : String)
    (onMap : Bool → List (String × KdlAnnotatedLiteral) → Option (List KdlNode) → Except DeError α)
    (n : KdlNode) : Except DeError α :=
  nodeDeser_mapCore false exp onMap n

def nodeDeser_struct (exp : String)
    (onMap : Bool → List (String × KdlAnnotatedLiteral) → Option (List KdlNode) → Except DeError α)
    (n : KdlNode) : Except DeError α :=
  nodeDeser_mapCore true exp onMap n

/-- `KdlNodeDeser::deserialize_seq` with the standard collect-every-element
sequence visitor (e.g. `Vec<T>`'s): either only arguments, or a children
block whose nodes are all named `-`.  `fA` decodes an argument literal,
`fN` a child node, at the element shape. -/
def nodeDeser_seq (exp : String) (fA : KdlAnnotatedLiteral → Except DeError α)
    (fN : KdlNode → Except DeError α) (n : KdlNode) : Except DeError (List α) :=
  if !n.properties.isEmpty || (n.arguments.isEmpty && n.children.isNone) then
    .error (.invalidType
      (.other "node invalid as sequence (needs either only args, or children all named `-`)") exp)
  else
    match n.children with
    | some kids =>
      if kids.all (fun k => k.name == "-") then kids.mapM fN
      else
        .error (.invalidType
          (.other "node invalid as sequence (needs either only args, or children all named `-`)")
          exp)
    | none => n.arguments.mapM fA

/-- `KdlNodeDeser::deserialize_unit`: the node must be completely empty. -/
def nodeDeser_unit (exp : String) (onUnit : Except DeError α) (n : KdlNode) :
    Except DeError α :=
  if n.arguments.isEmpty ∧ n.properties.isEmpty ∧ n.children.isNone then onUnit
  else .error (.invalidType (.other "node with arguments or properties or children") exp)

/-- The callbacks a self-describing (`deserialize_any`) request can end in,
one per `visit_*` the source can invoke, plus the visitor's `expecting`
text. -/
structure AnyVisitor (α : Type) where
  exp : String
  onUnit : Except DeError α
  onSeqArgs : List KdlAnnotatedLiteral → Except DeError α
  onSeqKids : List KdlNode → Except DeError α
  onMap : Bool → List (String × KdlAnnotatedLiteral) → Option (List KdlNode) → Except DeError α

/-- `KdlNodeDeser::deserialize_any`: dispatch on (has arguments, has
properties or children).  The all-dash-children guard arm sits after the
`(true, true)` error arm in the source, so it only fires in the
`(false, true)` case, which otherwise falls through to `deserialize_map`. -/
def nodeDeser_any (v : AnyVisitor α) (n : KdlNode) : Except DeError α :=
  let kidsAllDashes :=
    match n.children with
    | some kids => kids.all (fun k => k.name == "-")
    | none => false
  match !n.arguments.isEmpty, !n.properties.isEmpty || n.children.isSome with
  | false, false => v.onUnit
  | true, true =>
    .error (.invalidType
      (.other "node with arguments, properties/children, or neither (and not both)") v.exp)
  | true, false => v.onSeqArgs n.arguments
  | false, true =>
    if kidsAllDashes then v.onSeqKids (n.children.getD [])
    else nodeDeser_mapCore false v.exp v.onMap n

/-! ## Fabricator (dialga/src/lib.rs) -/

/-- Association-list lookup (used for the fabricator registry, a `BTreeMap`
in the source; only keyed access matters). -/
def assocGet : List (String × α) → String → Option α
  | [], _ => none
  | (k, v) :: rest, n => if k = n then some v else assocGet rest n

/-- `dialga::EntityFabricator`, over an abstract component type `C`: the
blueprint library plus the registry mapping component names to
decode functions (each `ComponentFactory`'s `func` deserializes the node
into the component; insertion into the builder is factored out as the
abstract `ins` below). -/
structure EntityFabricator (C : Type) where
  blueprints : BlueprintLibrary
  fabricators : List (String × (KdlNode → Except DeError C))

/-- `dialga::InstantiationError`.  `lookupOutOfFuel` is a model artifact
for the fuel embedding of `lookup`, proved unreachable. -/
inductive InstantiationError where
  | blueprintLookupError (e : BlueprintLookupError)
  | noBlueprint (name : String)
  | deError (name : String) (e : DeError)
  | lookupOutOfFuel

/-- The component loop of `instantiate_catching_builder`: for each
component node look up its factory by node name, decode, and insert into
the builder (`ins` embeds the builder's `insert_raw` capability); every
failure returns the builder alongside the error. -/
def fabricateComps (ins : β → C → β) (fabs : List (String × (KdlNode → Except DeError C))) :
    β → List KdlNode → Except (InstantiationError × β) β
  | b, [] => .ok b
  | b, comp :: rest =>
    match assocGet fabs comp.name with
    | none => .error (.noBlueprint comp.name, b)
    | some factory =>
      match factory comp with
      | .error err => .error (.deError comp.name err, b)
      | .ok c => fabricateComps ins fabs (ins b c) rest

/-- `EntityFabricator::instantiate_catching_builder`. -/
def instantiate_catching_builder (fab : EntityFabricator C) (name : String) (builder : β)
    (ins : β → C → β) : Except (InstantiationError × β) β :=
  match lookup fab.blueprints name with
  | .ok print => fabricateComps ins fab.fabricators builder print.components
  | .err e => .error (.blueprintLookupError e, builder)
  | .outOfFuel => .error (.lookupOutOfFuel, builder)

/-- Decode one component node against the registry, without a builder. -/
def regDecodeOne (fabs : List (String × (KdlNode → Except DeError C))) (comp : KdlNode) :
    Except InstantiationError C :=
  match assocGet fabs comp.name with
  | none => .error (.noBlueprint comp.name)
  | some f =>
    match f comp with
    | .error e => .error (.deError comp.name e)
    | .ok c => .ok c

/-- Decode a list of component nodes in order, stopping at the first
failure. -/
def decodeComps (fabs : List (String × (KdlNode → Except DeError C))) :
    List KdlNode → Except InstantiationError (List C)
  | [] => .ok []
  | c :: rest =>
    match regDecodeOne fabs c with
    | .error e => .error e
    | .ok v =>
      match decodeComps fabs rest with
      | .error e => .error e
      | .ok vs => .ok (v :: vs)

/-! ## Concrete instances used by witnesses -/

/-- A library whose inherit edges form the cycle A → B → C → A. -/
def cycleLib : BlueprintLibrary :=
  [⟨"A", some "B", .merge, []⟩, ⟨"B", some "C", .merge, []⟩, ⟨"C", some "A", .merge, []⟩]

def compA1 : KdlNode := .mk "pos" [⟨none, .int 1⟩] [] none
def compA2 : KdlNode := .mk "hp" [⟨none, .int 10⟩] [] none
def compB1 : KdlNode := .mk "pos" [⟨none, .int 2⟩] [] none
def compB2 : KdlNode := .mk "named" [⟨none, .str "x"⟩] [] none

/-- Library holding a blueprint "bp" (for the insert-merge witness). -/
def c2Lib : BlueprintLibrary := [⟨"bp", none, .merge, [compA1, compA2]⟩]

/-- Library with "par" and "chi" where chi inherits par. -/
def c3Lib : BlueprintLibrary :=
  [⟨"par", none, .merge, [compA1, compA2]⟩, ⟨"chi", some "par", .clobber, [compB1, compB2]⟩]

/-- One-argument node, nothing else. -/
def oneArgNode : KdlNode := .mk "n" [⟨none, .int 7⟩] [] none

/-- Node with both an argument and a property. -/
def mixedNode : KdlNode := .mk "n" [⟨none, .int 1⟩] [("k", ⟨none, .int 2⟩)] none

/-- Node with an argument and a dash-children block. -/
def dashListNode : KdlNode :=
  .mk "n" [⟨none, .int 1⟩] [] (some [KdlNode.mk "-" [⟨none, .int 2⟩] [] none])

/-- A trivial self-describing visitor for witnesses. -/
def unitAnyVisitor : AnyVisitor Unit :=
  ⟨"any", .ok (), fun _ => .ok (), fun _ => .ok (), fun _ _ _ => .ok ()⟩

/-- Fabricator with one blueprint containing an unregistered component
between two registered ones. -/
def c9Fab : EntityFabricator Int :=
  ⟨[⟨"bp", none, .merge, [compA1, KdlNode.mk "bad" [] [] none, compA2]⟩],
   [("pos", nodeDeser_i64), ("hp", nodeDeser_i64)]⟩

/-! ## Lemmas: component merge -/

theorem names_any_eq (l : List KdlNode) (s : String) :
    (l.any fun o => o.name == s) = decide (s ∈ l.map KdlNode.name) := by
  induction l with
  | nil => simp
  | cons o rest ih =>
    simp only [List.any_cons, List.map_cons, List.mem_cons, ih]
    by_cases h : o.name = s
    · simp [h]
    · have h' : ¬s = o.name := fun hh => h hh.symm
      simp [h, h']

theorem mergeOne_of_not_mem (old : List KdlNode) (c : KdlNode)
    (h : ∀ o ∈ old, o.name ≠ c.name) : mergeOne old c = old ++ [c] := by
  induction old with
  | nil => rfl
  | cons o rest ih =>
    simp only [mergeOne]
    rw [if_neg (h o (by simp))]
    simp only [List.cons_append, List.cons.injEq, true_and]
    exact ih fun x hx => h x (by simp [hx])

theorem mergeOne_of_mem (old : List KdlNode) (c : KdlNode)
    (hnd : (old.map KdlNode.name).Nodup) (h : c.name ∈ old.map KdlNode.name) :
    mergeOne old c = old.map (fun o => if o.name = c.name then c else o) := by
  induction old with
  | nil => simp at h
  | cons o rest ih =>
    simp only [List.map_cons, List.nodup_cons] at hnd
    simp only [List.map_cons, List.mem_cons] at h
    simp only [mergeOne, List.map_cons]
    by_cases ho : o.name = c.name
    · rw [if_pos ho, if_pos ho]
      have key : ∀ x ∈ rest, (if x.name = c.name then c else x) = x := by
        intro x hx
        rw [if_neg]
        intro hxc
        exact hnd.1 (by rw [ho, ← hxc]; exact List.mem_map_of_mem KdlNode.name hx)
      simp only [List.cons.injEq, true_and]
      simpa using (List.map_congr_left key).symm
    · rw [if_neg ho, if_neg ho]
      have hmem : c.name ∈ rest.map KdlNode.name := by
        rcases h with h | h
        · exact absurd h.symm ho
        · exact h
      rw [ih hnd.2 hmem]

theorem names_mergeOne (old : List KdlNode) (c : KdlNode) :
    (mergeOne old c).map KdlNode.name =
      if c.name ∈ old.map KdlNode.name then old.map KdlNode.name
      else old.map KdlNode.name ++ [c.name] := by
  induction old with
  | nil => simp [mergeOne]
  | cons o rest ih =>
    simp only [mergeOne, List.map_cons, List.mem_cons]
    by_cases ho : o.name = c.name
    · rw [if_pos ho, if_pos (Or.inl ho.symm)]
      simp [ho]
    · rw [if_neg ho]
      simp only [List.map_cons]
      by_cases hc : c.name ∈ rest.map KdlNode.name
      · rw [ih, if_pos hc, if_pos (Or.inr hc)]
      · rw [ih, if_neg hc, if_neg ?hn]
        · simp
        case hn =>
          intro hh
          rcases hh with hh | hh
          · exact ho hh.symm
          · exact hc hh

theorem names_mergeOne_nodup (old : List KdlNode) (c : KdlNode)
    (h : (old.map KdlNode.name).Nodup) : ((mergeOne old c).map KdlNode.name).Nodup := by
  rw [names_mergeOne]
  by_cases hc : c.name ∈ old.map KdlNode.name
  · rwa [if_pos hc]
  · rw [if_neg hc, List.nodup_append]
    refine ⟨h, List.nodup_singleton _, ?_⟩
    intro x hx hxc
    simp only [List.mem_singleton] at hxc
    exact hc (hxc ▸ hx)

/-- The replace-or-append fold of the source equals the spec's description
of it, whenever both lists have duplicate-free component names. -/
theorem mergeComponents_eq_mergeSpec (old new : List KdlNode)
    (hOld : (old.map KdlNode.name).Nodup) (hNew : (new.map KdlNode.name).Nodup) :
    mergeComponents old new = mergeSpec old new := by
  induction new generalizing old with
  | nil => simp [mergeComponents, mergeSpec]
  | cons c rest ih =>
    simp only [List.map_cons, List.nodup_cons] at hNew
    have hcrest : c.name ∉ rest.map KdlNode.name := hNew.1
    show mergeComponents (mergeOne old c) rest = mergeSpec old (c :: rest)
    by_cases hmem : c.name ∈ old.map KdlNode.name
    · have hrepl := mergeOne_of_mem old c hOld hmem
      have hnames : (List.map (fun o => if o.name = c.name then c else o) old).map KdlNode.name =
          old.map KdlNode.name := by
        rw [List.map_map]
        apply List.map_congr_left
        intro o _
        simp only [Function.comp_apply]
        by_cases h : o.name = c.name
        · rw [if_pos h, h]
        · rw [if_neg h]
      rw [ih (mergeOne old c) (names_mergeOne_nodup old c hOld) hNew.2, hrepl]
      unfold mergeSpec
      congr 1
      · rw [List.map_map]
        apply List.map_congr_left
        intro o ho
        simp only [Function.comp_apply]
        by_cases h : o.name = c.name
        · rw [if_pos h]
          have hfind : rest.find? (fun c' => c'.name == c.name) = none :=
            List.find?_eq_none.mpr (fun x hx hxc => hcrest (by
              rw [← show x.name = c.name from by simpa using hxc]
              exact List.mem_map_of_mem KdlNode.name hx))
          rw [h, List.find?_cons_of_pos _ (by simp), hfind]
          rfl
        · rw [if_neg h, List.find?_cons_of_neg _ (by
            simp only [beq_iff_eq]
            exact fun hh => h hh.symm)]
      · rw [List.filter_cons]
        have hcany : (!old.any fun o => o.name == c.name) = false := by
          rw [names_any_eq]; simp [hmem]
        rw [hcany, if_neg (by simp)]
        apply List.filter_congr
        intro d hd
        rw [names_any_eq, names_any_eq, hnames]
    · have happ := mergeOne_of_not_mem old c (fun o ho hc =>
        hmem (by rw [← hc]; exact List.mem_map_of_mem KdlNode.name ho))
      have hndApp : ((old ++ [c]).map KdlNode.name).Nodup := by
        rw [List.map_append, List.nodup_append]
        refine ⟨hOld, by simp, ?_⟩
        intro x hx hxc
        simp only [List.map_cons, List.map_nil, List.mem_singleton] at hxc
        exact hmem (hxc ▸ hx)
      rw [ih (mergeOne old c) (by rw [happ]; exact hndApp) hNew.2, happ]
      unfold mergeSpec
      rw [List.map_append, List.filter_cons]
      have hkeep : (!old.any fun o => o.name == c.name) = true := by
        rw [names_any_eq]; simp [hmem]
      rw [hkeep, if_pos rfl]
      have e1 : old.map (fun o => ((rest.find? fun c' => c'.name == o.name).getD o)) =
          old.map (fun o => (((c :: rest).find? fun c' => c'.name == o.name).getD o)) := by
        apply List.map_congr_left
        intro o ho
        rw [List.find?_cons_of_neg _ (by
          simp only [beq_iff_eq]
          intro hco
          exact hmem (by rw [hco]; exact List.mem_map_of_mem KdlNode.name ho))]
      have e2 : [c].map (fun o => ((rest.find? fun c' => c'.name == o.name).getD o)) = [c] := by
        simp only [List.map_cons, List.map_nil]
        rw [List.find?_eq_none.mpr (fun x hx hxc => hcrest (by
          rw [← show x.name = c.name from by simpa using hxc]
          exact List.mem_map_of_mem KdlNode.name hx))]
        rfl
      have e3 : rest.filter (fun d => !(old ++ [c]).any fun o => o.name == d.name) =
          rest.filter (fun d => !old.any fun o => o.name == d.name) := by
        apply List.filter_congr
        intro d hd
        have h2 : (c.name == d.name) = false := by
          simp only [beq_eq_false_iff_ne, ne_eq]
          intro hcd
          exact hcrest (hcd ▸ List.mem_map_of_mem KdlNode.name hd)
        simp [List.any_append, List.any_cons, h2]
      rw [e1, e2, e3]
      simp

/-! ## Lemmas: library insertion -/

/-- What `insert_raw` stores when an entry with the new blueprint's name
already exists. -/
theorem insert_raw_found (lib : BlueprintLibrary) (nw old : RawBlueprint)
    (h : libGet lib nw.name = some old) :
    libGet (insert_raw lib nw) nw.name = some
      (match nw.merge with
        | .clobber => nw
        | .merge => { old with components := mergeComponents old.components nw.components }) := by
  induction lib with
  | nil => simp [libGet] at h
  | cons e rest ih =>
    by_cases he : e.name = nw.name
    · simp only [libGet, if_pos he, Option.some.injEq] at h
      subst h
      simp only [insert_raw, if_pos he]
      cases hm : nw.merge with
      | clobber => simp [libGet]
      | merge => simp [libGet, he]
    · simp only [libGet, if_neg he] at h
      simp only [insert_raw, if_neg he, libGet, if_neg he]
      exact ih h

/-- C2 helper, Merge arm with the spec formula. -/
theorem insert_raw_merge_spec (lib : BlueprintLibrary) (nw old : RawBlueprint)
    (h : libGet lib nw.name = some old) (hm : nw.merge = .merge)
    (h1 : namesNodup old.components) (h2 : namesNodup nw.components) :
    libGet (insert_raw lib nw) nw.name = some
      { old with components := mergeSpec old.components nw.components } := by
  have hfound := insert_raw_found lib nw old h
  rw [hm] at hfound
  rw [hfound, mergeComponents_eq_mergeSpec _ _ h1 h2]

/-! ## Lemmas: lookup termination (C1) -/

theorem libGet_mem (lib : BlueprintLibrary) (n : String) (raw : RawBlueprint)
    (h : libGet lib n = some raw) : n ∈ libKeys lib := by
  induction lib with
  | nil => simp [libGet] at h
  | cons e rest ih =>
    by_cases he : e.name = n
    · simp only [libKeys, List.map_cons, List.mem_cons]
      exact Or.inl he.symm
    · simp only [libGet, if_neg he] at h
      simp only [libKeys, List.map_cons, List.mem_cons]
      exact Or.inr (ih h)

theorem libKeys_length (lib : BlueprintLibrary) : (libKeys lib).length = lib.length := by
  simp [libKeys]

/-- Core termination invariant: the visited path is duplicate-free, all but
its last entry are library keys, and its last entry is the name being
resolved; then fuel `|keys| + 2 - |path|` always suffices. -/
theorem recurse_ne_outOfFuel (lib : BlueprintLibrary) :
    ∀ (fuel : Nat) (name : String) (path : List String),
      path.Nodup → (∀ x ∈ path.dropLast, x ∈ libKeys lib) →
      (path ≠ [] → path.getLast? = some name) →
      (libKeys lib).length + 2 ≤ fuel + path.length →
      recurse lib fuel name path ≠ .outOfFuel := by
  intro fuel
  induction fuel with
  | zero =>
    intro name path hnd hsub hlast hbound
    exfalso
    have hdl : path.dropLast.length ≤ (libKeys lib).length :=
      (List.subperm_of_subset ((List.dropLast_sublist path).nodup hnd) hsub).length_le
    have hlen : path.length ≤ (libKeys lib).length + 1 := by
      have := List.length_dropLast path
      cases path with
      | nil => simp
      | cons a t =>
        simp only [List.length_dropLast_cons] at hdl
        simp only [List.length_cons]
        omega
    omega
  | succ f ih =>
    intro name path hnd hsub hlast hbound
    cases hg : libGet lib name with
    | none =>
      cases hl : path.getLast? <;> simp [recurse, hg, hl]
    | some raw =>
      cases hi : raw.inherit with
      | none => simp [recurse, hg, hi]
      | some parent =>
        by_cases hp : parent ∈ path
        · simp [recurse, hg, hi, hp]
        · have hnodup2 : (path ++ [parent]).Nodup := by
            rw [List.nodup_append]
            refine ⟨hnd, List.nodup_singleton _, ?_⟩
            intro x hx hxp
            simp only [List.mem_singleton] at hxp
            exact hp (hxp ▸ hx)
          have hsub2 : ∀ x ∈ (path ++ [parent]).dropLast, x ∈ libKeys lib := by
            rw [List.dropLast_concat]
            intro x hx
            by_cases hpe : path = []
            · subst hpe; simp at hx
            · rw [← List.dropLast_append_getLast hpe] at hx
              rcases List.mem_append.mp hx with hx | hx
              · exact hsub x hx
              · simp only [List.mem_singleton] at hx
                have hname : path.getLast hpe = name := by
                  have h1 := List.getLast?_eq_getLast path hpe
                  have h2 := hlast hpe
                  rw [h1] at h2
                  exact Option.some.inj h2
                rw [hx, hname]
                exact libGet_mem lib name raw hg
          have hlast2 : (path ++ [parent]) ≠ [] → (path ++ [parent]).getLast? = some parent :=
            fun _ => List.getLast?_concat path
          have hbound2 : (libKeys lib).length + 2 ≤ f + (path ++ [parent]).length := by
            simp only [List.length_append, List.length_cons, List.length_nil]
            omega
          have hrec := ih parent (path ++ [parent]) hnodup2 hsub2 hlast2 hbound2
          simp only [recurse, hg, hi, if_neg hp]
          cases hr : recurse lib f parent (path ++ [parent]) with
          | ok pb => simp
          | err e => simp
          | outOfFuel => exact absurd hr hrec

/-- `lookup` never exhausts its fuel: the recursion in the source
terminates on every finite library. -/
theorem lookup_ne_outOfFuel (lib : BlueprintLibrary) (name : String) :
    lookup lib name ≠ .outOfFuel := by
  apply recurse_ne_outOfFuel lib (lib.length + 2) name []
  · exact List.nodup_nil
  · intro x hx; simp at hx
  · intro h; exact absurd rfl h
  · rw [libKeys_length]; simp

/-! ## Lemmas: shape of a reported inheritance loop (C1) -/

theorem dropWhile_ne_of_mem (parent : String) (path : List String) (h : parent ∈ path) :
    ∃ rest, path.dropWhile (fun k => k != parent) = parent :: rest := by
  induction path with
  | nil => simp at h
  | cons a t ih =>
    by_cases ha : a = parent
    · subst ha
      refine ⟨t, ?_⟩
      rw [List.dropWhile_cons_of_neg (by simp)]
    · rw [List.dropWhile_cons_of_pos (by simp [Ne.symm, ha])]
      exact ih (by rcases List.mem_cons.mp h with h | h; exact absurd h.symm ha; exact h)

theorem dropWhile_nodup {path : List String} (p : String → Bool) (h : path.Nodup) :
    (path.dropWhile p).Nodup := by
  have := List.takeWhile_append_dropWhile (p := p) (l := path)
  rw [← this] at h
  exact (List.nodup_append.mp h).2.1

/-- Any inheritance-loop error issued by `recurse` from a duplicate-free
path reports a list of the form `x :: q ++ [x]` with `x :: q`
duplicate-free: every reported member appears exactly once, plus the
repeated closing name. -/
theorem recurse_loop_shape (lib : BlueprintLibrary) :
    ∀ (fuel : Nat) (name : String) (path : List String) (p : List String),
      path.Nodup → recurse lib fuel name path = .err (.inheritanceLoop p) →
      ∃ x q, p = (x :: q) ++ [x] ∧ (x :: q).Nodup := by
  intro fuel
  induction fuel with
  | zero => intro name path p _ h; simp [recurse] at h
  | succ f ih =>
    intro name path p hnd h
    cases hg : libGet lib name with
    | none =>
      rw [recurse] at h
      rw [hg] at h
      cases hl : path.getLast? <;> rw [hl] at h <;> simp at h
    | some raw =>
      cases hi : raw.inherit with
      | none =>
        rw [recurse] at h
        rw [hg] at h
        simp [hi] at h
      | some parent =>
        by_cases hp : parent ∈ path
        · rw [recurse] at h
          rw [hg] at h
          simp only [hi, if_pos hp, LookupResult.err.injEq,
            BlueprintLookupError.inheritanceLoop.injEq] at h
          obtain ⟨rest, hrest⟩ := dropWhile_ne_of_mem parent path hp
          have hnr : (parent :: rest).Nodup := by
            rw [← hrest]
            exact dropWhile_nodup _ hnd
          exact ⟨parent, rest, by rw [← h, hrest], hnr⟩
        · rw [recurse] at h
          rw [hg] at h
          simp only [hi, if_neg hp] at h
          have hnodup2 : (path ++ [parent]).Nodup := by
            rw [List.nodup_append]
            refine ⟨hnd, List.nodup_singleton _, ?_⟩
            intro x hx hxp
            simp only [List.mem_singleton] at hxp
            exact hp (hxp ▸ hx)
          cases hr : recurse lib f parent (path ++ [parent]) with
          | ok pb => rw [hr] at h; simp at h
          | err e =>
            rw [hr] at h
            simp only [LookupResult.err.injEq] at h
            subst h
            exact ih parent (path ++ [parent]) p hnodup2 hr
          | outOfFuel => rw [hr] at h; simp at h

/-! ## Lemmas: inherit cycles (C1) -/

theorem gEdge_elim {lib : BlueprintLibrary} {x y : String} (h : gEdge lib x y = true) :
    ∃ raw, libGet lib x = some raw ∧ raw.inherit = some y := by
  simp only [gEdge] at h
  cases hg : libGet lib x with
  | none => rw [hg] at h; simp at h
  | some raw =>
    rw [hg] at h
    simp only [beq_iff_eq] at h
    exact ⟨raw, rfl, h⟩

theorem isCycleB_elim (lib : BlueprintLibrary) (c : List String) (h : isCycleB lib c = true) :
    c ≠ [] ∧ c.Nodup ∧ linkedB lib c (c.headD "") = true := by
  cases c with
  | nil => simp [isCycleB] at h
  | cons ch ct =>
    simp only [isCycleB, Bool.and_eq_true, decide_eq_true_eq] at h
    exact ⟨by simp, h.1, by simpa using h.2⟩

theorem linkedB_mem_libGet (lib : BlueprintLibrary) :
    ∀ (c : List String) (f : String), linkedB lib c f = true →
      ∀ x ∈ c, ∃ raw, libGet lib x = some raw := by
  intro c
  induction c with
  | nil => intro f _ x hx; simp at hx
  | cons a t ih =>
    intro f h x hx
    cases t with
    | nil =>
      simp only [List.mem_singleton] at hx
      subst hx
      simp only [linkedB] at h
      obtain ⟨raw, hg, _⟩ := gEdge_elim h
      exact ⟨raw, hg⟩
    | cons b t' =>
      simp only [linkedB, Bool.and_eq_true] at h
      rcases List.mem_cons.mp hx with hx | hx
      · subst hx
        obtain ⟨raw, hg, _⟩ := gEdge_elim h.1
        exact ⟨raw, hg⟩
      · exact ih f h.2 x hx

theorem linkedB_append (lib : BlueprintLibrary) :
    ∀ (a : List String) (bh : String) (bt : List String) (f : String),
      linkedB lib (a ++ bh :: bt) f = true ↔
        (linkedB lib a bh = true ∧ linkedB lib (bh :: bt) f = true) := by
  intro a
  induction a with
  | nil =>
    intro bh bt f
    simp [linkedB]
  | cons x a' ih =>
    intro bh bt f
    cases a' with
    | nil =>
      simp only [List.nil_append, List.cons_append, linkedB, Bool.and_eq_true]
    | cons y a'' =>
      simp only [List.cons_append, linkedB, Bool.and_eq_true]
      have ihy := ih bh bt f
      simp only [List.cons_append, Bool.and_eq_true] at ihy
      constructor
      · rintro ⟨h1, h2⟩
        have h3 := ihy.mp h2
        exact ⟨⟨h1, h3.1⟩, h3.2⟩
      · rintro ⟨⟨h1, h2⟩, h3⟩
        exact ⟨h1, ihy.mpr ⟨h2, h3⟩⟩

theorem isCycleB_rotate (lib : BlueprintLibrary) (d e : List String) (x : String)
    (h : isCycleB lib (d ++ x :: e) = true) : isCycleB lib ((x :: e) ++ d) = true := by
  obtain ⟨hne, hnd, hlk⟩ := isCycleB_elim lib _ h
  cases d with
  | nil => simpa using h
  | cons dh dt =>
    have hlk' : linkedB lib ((dh :: dt) ++ x :: e) dh = true := by
      simpa using hlk
    have hsplit := (linkedB_append lib (dh :: dt) x e dh).mp hlk'
    simp only [isCycleB, List.cons_append, Bool.and_eq_true, decide_eq_true_eq]
    constructor
    · have hperm : ((dh :: dt) ++ x :: e).Perm ((x :: e) ++ dh :: dt) :=
        List.perm_append_comm
      have := hperm.nodup_iff.mp hnd
      simpa using this
    · exact (linkedB_append lib (x :: e) dh dt x).mpr ⟨hsplit.2, hsplit.1⟩


theorem recurse_step_inherit {lib : BlueprintLibrary} {fuel : Nat} {name : String}
    {path : List String} {raw : RawBlueprint} {parent : String}
    (hg : libGet lib name = some raw) (hi : raw.inherit = some parent) (hp : parent ∉ path) :
    recurse lib (fuel + 1) name path =
      match recurse lib fuel parent (path ++ [parent]) with
      | .ok pb => .ok ⟨pb.name, mergeComponents pb.components raw.components⟩
      | other => other := by
  simp [recurse, hg, hi, hp]

theorem recurse_step_loop {lib : BlueprintLibrary} {fuel : Nat} {name : String}
    {path : List String} {raw : RawBlueprint} {parent : String}
    (hg : libGet lib name = some raw) (hi : raw.inherit = some parent) (hp : parent ∈ path) :
    recurse lib (fuel + 1) name path =
      .err (.inheritanceLoop ((path.dropWhile (fun k => k != parent)) ++ [parent])) := by
  simp [recurse, hg, hi, hp]

theorem headD_mem {α : Type} {l : List α} (h : l ≠ []) (d : α) : l.headD d ∈ l := by
  cases l with
  | nil => exact absurd rfl h
  | cons a t => simp

theorem loopPathOf_mem (c : List String) (hne : c ≠ []) (y : String) :
    y ∈ loopPathOf c ↔ y ∈ c := by
  cases c with
  | nil => exact absurd rfl hne
  | cons c0 t =>
    have hm : (t ++ [c0]).headD c0 ∈ t ++ [c0] := headD_mem (by simp) c0
    simp only [List.mem_append, List.mem_cons, List.not_mem_nil, or_false] at hm
    simp only [loopPathOf, List.mem_append, List.mem_cons, List.not_mem_nil, or_false]
    constructor
    · intro hy
      rcases hy with (hy | hy) | hy
      · exact Or.inr hy
      · exact Or.inl hy
      · subst hy
        rcases hm with hm | hm
        · exact Or.inr hm
        · exact Or.inl hm
    · intro hy
      rcases hy with hy | hy
      · exact Or.inl (Or.inr hy)
      · exact Or.inl (Or.inl hy)

/-- Running `recurse` from any point of an inherit cycle: with the path
holding the cycle members already walked, the run walks the remaining
members, revisits the entry point, and reports the loop path
`loopPathOf c` (each member once, the first-walked member repeated). -/
theorem recurse_cycle_run (lib : BlueprintLibrary) (c : List String)
    (hcyc : isCycleB lib c = true) :
    ∀ (e' : List String) (x : String) (d : List String) (fuel : Nat),
      c = d ++ x :: e' → c.length + 2 - d.length ≤ fuel →
      recurse lib fuel x ((d ++ [x]).tail) = .err (.inheritanceLoop (loopPathOf c)) := by
  obtain ⟨hne, hnd, hlk⟩ := isCycleB_elim lib c hcyc
  intro e'
  induction e' with
  | nil =>
    intro x d fuel hc hfuel
    cases d with
    | nil =>
      have hc' : c = [x] := by simpa using hc
      rw [hc'] at hfuel hnd hlk ⊢
      have hxx : gEdge lib x x = true := by simpa [linkedB] using hlk
      obtain ⟨raw, hg, hi⟩ := gEdge_elim hxx
      obtain ⟨f, rfl⟩ : ∃ f, fuel = f + 1 + 1 :=
        ⟨fuel - 2, by simp only [List.length_cons, List.length_nil, List.length_nil] at hfuel; omega⟩
      show recurse lib (f + 1 + 1) x [] = .err (.inheritanceLoop (loopPathOf [x]))
      rw [recurse_step_inherit hg hi (by simp)]
      rw [show ([] : List String) ++ [x] = [x] from rfl]
      rw [recurse_step_loop hg hi (by simp)]
      rw [List.dropWhile_cons_of_neg (by simp)]
      simp [loopPathOf]
    | cons c0 dt =>
      rw [hc] at hfuel hnd hlk ⊢
      have hlk' : linkedB lib ((c0 :: dt) ++ [x]) c0 = true := by simpa using hlk
      have hsplit := (linkedB_append lib (c0 :: dt) x [] c0).mp hlk'
      obtain ⟨rawx, hgx, hix⟩ := gEdge_elim (show gEdge lib x c0 = true by
        simpa [linkedB] using hsplit.2)
      have hy : ∃ y lt, dt ++ [x] = y :: lt ∧ gEdge lib c0 y = true := by
        cases dt with
        | nil => exact ⟨x, [], rfl, by simpa [linkedB] using hsplit.1⟩
        | cons d1 dt' =>
          refine ⟨d1, dt' ++ [x], rfl, ?_⟩
          have h1 := hsplit.1
          simp only [linkedB, Bool.and_eq_true] at h1
          exact h1.1
      obtain ⟨y, lt, hyl, hcy⟩ := hy
      obtain ⟨rawc, hgc, hic⟩ := gEdge_elim hcy
      have hnd' : (c0 :: (dt ++ [x])).Nodup := by simpa using hnd
      have hc0 : c0 ∉ dt ++ [x] := (List.nodup_cons.mp hnd').1
      obtain ⟨f, rfl⟩ : ∃ f, fuel = f + 1 + 1 :=
        ⟨fuel - 2, by
          simp only [List.length_append, List.length_cons, List.length_nil] at hfuel; omega⟩
      show recurse lib (f + 1 + 1) x (dt ++ [x]) =
        .err (.inheritanceLoop (loopPathOf ((c0 :: dt) ++ [x])))
      rw [recurse_step_inherit hgx hix hc0]
      have hymem : y ∈ (dt ++ [x]) ++ [c0] := by rw [hyl]; simp
      rw [recurse_step_loop hgc hic hymem]
      have hlist : (dt ++ [x]) ++ [c0] = y :: (lt ++ [c0]) := by rw [hyl]; rfl
      rw [hlist, List.dropWhile_cons_of_neg (by simp)]
      have hloop : loopPathOf ((c0 :: dt) ++ [x]) = (y :: (lt ++ [c0])) ++ [y] := by
        show loopPathOf (c0 :: (dt ++ [x])) = (y :: (lt ++ [c0])) ++ [y]
        simp only [loopPathOf]
        rw [hlist]
        simp
      rw [hloop]
  | cons z e'' ih =>
    intro x d fuel hc hfuel
    have hxz : gEdge lib x z = true := by
      rcases d with _ | ⟨dh, dt⟩
      · have hlk' := hlk
        rw [hc] at hlk'
        simp only [List.nil_append, List.headD_cons] at hlk'
        simp only [linkedB, Bool.and_eq_true] at hlk'
        exact hlk'.1
      · have hlk' := hlk
        rw [hc] at hlk'
        have hh : (((dh :: dt) ++ x :: z :: e'')).headD "" = dh := by simp
        rw [hh] at hlk'
        have hspl := (linkedB_append lib (dh :: dt) x (z :: e'') dh).mp hlk'
        have h2 := hspl.2
        simp only [linkedB, Bool.and_eq_true] at h2
        exact h2.1
    obtain ⟨rawx, hgx, hix⟩ := gEdge_elim hxz
    have hznd : z ∉ d ∧ z ≠ x := by
      have hnd' := hnd
      rw [hc, List.nodup_append] at hnd'
      obtain ⟨h1, h2, h3⟩ := hnd'
      constructor
      · intro hzd
        exact h3 hzd (by simp)
      · intro hzx
        have hx2 := (List.nodup_cons.mp h2).1
        exact hx2 (List.mem_cons.mpr (Or.inl hzx.symm))
    have hznotin : z ∉ (d ++ [x]).tail := by
      intro hzt
      have hmem : z ∈ d ++ [x] := List.mem_of_mem_tail hzt
      rcases List.mem_append.mp hmem with h | h
      · exact hznd.1 h
      · simp only [List.mem_singleton] at h
        exact hznd.2 h
    have hclen : d.length + 2 ≤ c.length := by
      rw [hc]
      simp only [List.length_append, List.length_cons]
      omega
    obtain ⟨f, rfl⟩ : ∃ f, fuel = f + 1 := ⟨fuel - 1, by omega⟩
    rw [recurse_step_inherit hgx hix hznotin]
    have hpath : (d ++ [x]).tail ++ [z] = ((d ++ [x]) ++ [z]).tail := by
      cases d <;> rfl
    rw [hpath]
    have hrec := ih z (d ++ [x]) f
      (by rw [hc]; simp)
      (by simp only [List.length_append, List.length_cons, List.length_nil]; omega)
    rw [hrec]

/-- Looking up any member of an inherit cycle yields an inheritance-loop
error whose reported path has exactly the cycle's members. -/
theorem lookup_cycle_member (lib : BlueprintLibrary) (c : List String) (name : String)
    (hcyc : isCycleB lib c = true) (hmem : name ∈ c) :
    ∃ p, lookup lib name = .err (.inheritanceLoop p) ∧ (∀ y, y ∈ p ↔ y ∈ c) := by
  obtain ⟨d, e, rfl⟩ := List.append_of_mem hmem
  have hrot := isCycleB_rotate lib d e name hcyc
  obtain ⟨hne', hnd', hlk'⟩ := isCycleB_elim lib _ hrot
  have hsub : ∀ x ∈ (name :: e) ++ d, x ∈ libKeys lib := by
    intro x hx
    obtain ⟨raw, hg⟩ := linkedB_mem_libGet lib _ _ hlk' x hx
    exact libGet_mem lib x raw hg
  have hlen : ((name :: e) ++ d).length ≤ lib.length := by
    have h1 := (List.subperm_of_subset hnd' hsub).length_le
    rwa [libKeys_length] at h1
  have hrun := recurse_cycle_run lib ((name :: e) ++ d) hrot (e ++ d) name [] (lib.length + 2)
    (by simp) (by omega)
  refine ⟨loopPathOf ((name :: e) ++ d), hrun, ?_⟩
  intro y
  rw [loopPathOf_mem _ hne' y]
  simp only [List.mem_append, List.mem_cons]
  tauto

/-- C1: On every finite library, `lookup` terminates (the fuelled embedding
of the recursion never exhausts its fuel, i.e. the source recursion never
overflows the stack), every reported inheritance-loop path consists of
pairwise-distinct names closed by repeating the first one, and looking up
any member of an inherit cycle never succeeds: it returns an
inheritance-loop error whose reported path contains exactly the cycle's
members (by the second conjunct, each exactly once plus the repeated
closing name). -/
theorem claim_C1 (lib : BlueprintLibrary) (name : String) :
    lookup lib name ≠ .outOfFuel ∧
    (∀ p, lookup lib name = .err (.inheritanceLoop p) →
      ∃ x q, p = (x :: q) ++ [x] ∧ (x :: q).Nodup) ∧
    (∀ c, isCycleB lib c = true → name ∈ c →
      ∃ p, lookup lib name = .err (.inheritanceLoop p) ∧ (∀ y, y ∈ p ↔ y ∈ c)) := by
  refine ⟨lookup_ne_outOfFuel lib name, ?_, ?_⟩
  · intro p hp
    exact recurse_loop_shape lib (lib.length + 2) name [] p List.nodup_nil hp
  · intro c hcyc hmem
    exact lookup_cycle_member lib c name hcyc hmem

/-- C1 witness: the concrete A → B → C → A cycle. -/
theorem claim_C1_witness :
    isCycleB cycleLib ["A", "B", "C"] = true ∧ "A" ∈ ["A", "B", "C"] ∧
      ∃ p, lookup cycleLib "A" = .err (.inheritanceLoop p) ∧
        (∀ y, y ∈ p ↔ y ∈ ["A", "B", "C"]) :=
  ⟨by decide, by decide, (claim_C1 cycleLib "A").2.2 ["A", "B", "C"] (by decide) (by decide)⟩

/-- C2: Inserting a raw blueprint over an existing entry of the same name:
in Merge mode the stored component list becomes the old list with
like-named components replaced in place by the new ones, the untouched old
components kept in order, and the genuinely new components appended after
(stated for well-formed component lists with duplicate-free names); in
Clobber mode the whole stored entry is replaced by the new blueprint. -/
theorem claim_C2 (lib : BlueprintLibrary) (nw old : RawBlueprint)
    (h : libGet lib nw.name = some old) :
    (nw.merge = .merge → namesNodup old.components → namesNodup nw.components →
      ∃ e, libGet (insert_raw lib nw) nw.name = some e ∧
        e.components =
          old.components.map
            (fun o => ((nw.components.find? (fun c => c.name == o.name)).getD o)) ++
          nw.components.filter (fun c => !(old.components.any (fun o => o.name == c.name)))) ∧
    (nw.merge = .clobber → libGet (insert_raw lib nw) nw.name = some nw) := by
  constructor
  · intro hm h1 h2
    exact ⟨_, insert_raw_merge_spec lib nw old h hm h1 h2, rfl⟩
  · intro hm
    have hfound := insert_raw_found lib nw old h
    rw [hm] at hfound
    exact hfound

/-- C2 witness: merging `{pos 2, named "x"}` into stored `{pos 1, hp 10}`. -/
theorem claim_C2_witness :
    libGet c2Lib "bp" = some ⟨"bp", none, .merge, [compA1, compA2]⟩ ∧
    (∃ e, libGet (insert_raw c2Lib ⟨"bp", none, .merge, [compB1, compB2]⟩) "bp" = some e ∧
      e.components =
        [compA1, compA2].map
          (fun o => (([compB1, compB2].find? (fun c => c.name == o.name)).getD o)) ++
        [compB1, compB2].filter (fun c => !([compA1, compA2].any (fun o => o.name == c.name)))) :=
  ⟨rfl,
    (claim_C2 c2Lib ⟨"bp", none, .merge, [compB1, compB2]⟩
      ⟨"bp", none, .merge, [compA1, compA2]⟩ rfl).1 rfl (by decide) (by decide)⟩

/-- C10: a Merge-mode insertion over an existing entry leaves every stored
field except the component list unchanged: name, inherit parent and merge
mode all stay those of the old entry. -/
theorem claim_C10 (lib : BlueprintLibrary) (nw old : RawBlueprint)
    (h : libGet lib nw.name = some old) (hm : nw.merge = .merge) :
    ∃ e, libGet (insert_raw lib nw) nw.name = some e ∧
      e.name = old.name ∧ e.inherit = old.inherit ∧ e.merge = old.merge := by
  have hfound := insert_raw_found lib nw old h
  rw [hm] at hfound
  exact ⟨_, hfound, rfl, rfl, rfl⟩

/-- C10 witness: the inserted blueprint carries `inherit = some "zzz"` but
the stored entry keeps the old `none`. -/
theorem claim_C10_witness :
    ∃ e, libGet (insert_raw c2Lib ⟨"bp", some "zzz", .merge, [compB1]⟩) "bp" = some e ∧
      e.name = "bp" ∧ e.inherit = none ∧ e.merge = MergeMode.merge :=
  claim_C10 c2Lib ⟨"bp", some "zzz", .merge, [compB1]⟩
    ⟨"bp", none, .merge, [compA1, compA2]⟩ rfl rfl

/-! ## Lemmas: resolution chains (C3) -/

theorem Resolves.nodup_chain {lib : BlueprintLibrary} {n : String} {l : List String}
    {bp : Blueprint} (h : Resolves lib n l bp) : (n :: l).Nodup := by
  induction h with
  | base n raw hg hi => simp
  | step n p raw l pb hg hi hres hnin ih => exact List.nodup_cons.mpr ⟨hnin, ih⟩

theorem Resolves.found {lib : BlueprintLibrary} {n : String} {l : List String}
    {bp : Blueprint} (h : Resolves lib n l bp) : ∃ raw, libGet lib n = some raw := by
  cases h with
  | base _ raw hg _ => exact ⟨raw, hg⟩
  | step _ p raw _ _ hg _ _ _ => exact ⟨raw, hg⟩

theorem Resolves.keys {lib : BlueprintLibrary} {n : String} {l : List String}
    {bp : Blueprint} (h : Resolves lib n l bp) : ∀ x ∈ l, x ∈ libKeys lib := by
  induction h with
  | base n raw hg hi => simp
  | step n p raw l pb hg hi hres hnin ih =>
    intro x hx
    rcases List.mem_cons.mp hx with hx | hx
    · subst hx
      obtain ⟨rawp, hgp⟩ := hres.found
      exact libGet_mem lib x rawp hgp
    · exact ih x hx

theorem Resolves.det {lib : BlueprintLibrary} {n : String} {l₁ : List String}
    {bp₁ : Blueprint} (h₁ : Resolves lib n l₁ bp₁) :
    ∀ {l₂ : List String} {bp₂ : Blueprint}, Resolves lib n l₂ bp₂ → l₁ = l₂ ∧ bp₁ = bp₂ := by
  induction h₁ with
  | base n raw hg hi =>
    intro l₂ bp₂ h₂
    cases h₂ with
    | base _ raw' hg' hi' =>
      rw [hg] at hg'
      cases hg'
      exact ⟨rfl, rfl⟩
    | step _ p' raw' l' pb' hg' hi' hres' hnin' =>
      rw [hg] at hg'
      cases hg'
      rw [hi] at hi'
      cases hi'
  | step n p raw l pb hg hi hres hnin ih =>
    intro l₂ bp₂ h₂
    cases h₂ with
    | base _ raw' hg' hi' =>
      rw [hg] at hg'
      cases hg'
      rw [hi] at hi'
      cases hi'
    | step _ p' raw' l' pb' hg' hi' hres' hnin' =>
      rw [hg] at hg'
      cases hg'
      rw [hi] at hi'
      cases hi'
      obtain ⟨hl, hbp⟩ := ih hres'
      subst hl
      subst hbp
      exact ⟨rfl, rfl⟩

theorem Resolves.mem_chain {lib : BlueprintLibrary} {n : String} {l : List String}
    {bp : Blueprint} (h : Resolves lib n l bp) :
    ∀ x ∈ l, ∃ lx bpx, Resolves lib x lx bpx ∧ lx.length < l.length := by
  induction h with
  | base n raw hg hi => intro x hx; simp at hx
  | step n p raw l pb hg hi hres hnin ih =>
    intro x hx
    rcases List.mem_cons.mp hx with hx | hx
    · subst hx
      exact ⟨l, pb, hres, by simp⟩
    · obtain ⟨lx, bpx, hlx, hlen⟩ := ih x hx
      refine ⟨lx, bpx, hlx, ?_⟩
      simp only [List.length_cons]
      omega

/-- Soundness: a resolution chain runs to its blueprint from any path
disjoint from the chain, with fuel one more than the chain length. -/
theorem Resolves.run {lib : BlueprintLibrary} :
    ∀ {n : String} {l : List String} {bp : Blueprint}, Resolves lib n l bp →
      ∀ (path : List String) (fuel : Nat), (∀ x ∈ l, x ∉ path) → l.length + 1 ≤ fuel →
        recurse lib fuel n path = .ok bp := by
  intro n l bp h
  induction h with
  | base n raw hg hi =>
    intro path fuel _ hfuel
    obtain ⟨f, rfl⟩ : ∃ f, fuel = f + 1 := ⟨fuel - 1, by omega⟩
    simp [recurse, hg, hi]
  | step n p raw l pb hg hi hres hnin ih =>
    intro path fuel hdisj hfuel
    obtain ⟨f, rfl⟩ : ∃ f, fuel = f + 1 := ⟨fuel - 1, by omega⟩
    have hp : p ∉ path := hdisj p (by simp)
    rw [recurse_step_inherit hg hi hp]
    have hdisj2 : ∀ x ∈ l, x ∉ path ++ [p] := by
      intro x hx
      simp only [List.mem_append, List.mem_singleton]
      rintro (h | h)
      · exact hdisj x (by simp [hx]) h
      · subst h
        exact (List.nodup_cons.mp hres.nodup_chain).1 hx
    rw [ih (path ++ [p]) f hdisj2 (by
      simp only [List.length_cons] at hfuel
      omega)]

/-- Completeness: a successful run is a resolution chain, disjoint from the
starting path and avoiding the starting name. -/
theorem recurse_ok_resolves (lib : BlueprintLibrary) :
    ∀ (fuel : Nat) (n : String) (path : List String) (bp : Blueprint),
      recurse lib fuel n path = .ok bp →
      ∃ l, Resolves lib n l bp ∧ ∀ x ∈ l, x ∉ path ∧ x ≠ n := by
  intro fuel
  induction fuel with
  | zero => intro n path bp h; simp [recurse] at h
  | succ f ih =>
    intro n path bp h
    cases hg : libGet lib n with
    | none =>
      rw [recurse] at h
      rw [hg] at h
      cases hl : path.getLast? <;> rw [hl] at h <;> simp at h
    | some raw =>
      cases hi : raw.inherit with
      | none =>
        rw [recurse] at h
        rw [hg] at h
        simp only [hi, LookupResult.ok.injEq] at h
        subst h
        exact ⟨[], Resolves.base n raw hg hi, by simp⟩
      | some parent =>
        by_cases hp : parent ∈ path
        · rw [recurse] at h
          rw [hg] at h
          simp [hi, hp] at h
        · rw [recurse_step_inherit hg hi hp] at h
          cases hr : recurse lib f parent (path ++ [parent]) with
          | ok pb =>
            rw [hr] at h
            simp only [LookupResult.ok.injEq] at h
            subst h
            obtain ⟨l0, hres, hdis⟩ := ih parent (path ++ [parent]) pb hr
            have hpn : parent ≠ n := by
              intro hpe
              subst hpe
              cases f with
              | zero => simp [recurse] at hr
              | succ f' =>
                rw [recurse] at hr
                rw [hg] at hr
                simp [hi, List.mem_append] at hr
            have hnl0 : n ∉ l0 := by
              intro hnmem
              obtain ⟨l1, bpx, hres1, hlen1⟩ := hres.mem_chain n hnmem
              cases hres1 with
              | base _ raw' hg' hi' =>
                rw [hg] at hg'
                cases hg'
                rw [hi] at hi'
                cases hi'
              | step _ p' raw' l2 pb' hg' hi' hres2 hnin' =>
                rw [hg] at hg'
                cases hg'
                rw [hi] at hi'
                cases hi'
                obtain ⟨hl2, _⟩ := hres2.det hres
                subst hl2
                simp only [List.length_cons] at hlen1
                omega
            refine ⟨parent :: l0, ?_, ?_⟩
            · refine Resolves.step n parent raw l0 pb hg hi hres ?_
              simp only [List.mem_cons]
              rintro (hh | hh)
              · exact hpn hh.symm
              · exact hnl0 hh
            · intro x hx
              rcases List.mem_cons.mp hx with hx | hx
              · subst hx
                exact ⟨hp, hpn⟩
              · have hd := hdis x hx
                constructor
                · intro hxp
                  exact hd.1 (by simp [hxp])
                · intro hxn
                  subst hxn
                  exact hnl0 hx
          | err e => rw [hr] at h; simp at h
          | outOfFuel => rw [hr] at h; simp at h

/-- A child entry with a resolvable inherit parent resolves to the parent's
resolved blueprint overlaid with the child's own components. -/
theorem lookup_child_overlay (lib : BlueprintLibrary) (child pname : String)
    (craw : RawBlueprint) (pb : Blueprint)
    (hc : libGet lib child = some craw) (hi : craw.inherit = some pname)
    (hp : lookup lib pname = .ok pb) :
    lookup lib child = .ok ⟨pb.name, mergeComponents pb.components craw.components⟩ := by
  obtain ⟨l, hres, hdis⟩ := recurse_ok_resolves lib (lib.length + 2) pname [] pb hp
  have hnd := hres.nodup_chain
  have hlen : l.length ≤ lib.length := by
    have h1 := (List.subperm_of_subset (List.nodup_cons.mp hnd).2 hres.keys).length_le
    rwa [libKeys_length] at h1
  show recurse lib (lib.length + 1 + 1) child [] = _
  rw [recurse_step_inherit hc hi (by simp)]
  rw [show ([] : List String) ++ [pname] = [pname] from rfl]
  rw [hres.run [pname] (lib.length + 1)
    (by
      intro x hx
      simp only [List.mem_singleton]
      exact (hdis x hx).2)
    (by omega)]

/-! ## Lemmas: lookup ignores merge modes (C3) -/

theorem libGet_mapMerge (lib : BlueprintLibrary) (n : String) :
    libGet (mapMergeAll lib) n = (libGet lib n).map (fun e => { e with merge := .merge }) := by
  induction lib with
  | nil => rfl
  | cons e rest ih =>
    by_cases he : e.name = n
    · simp [mapMergeAll, libGet, he]
    · simp only [mapMergeAll, List.map_cons]
      show libGet (({ e with merge := .merge } : RawBlueprint) :: mapMergeAll rest) n = _
      simp only [libGet, he, if_neg he]
      simpa [mapMergeAll] using ih

theorem recurse_mapMerge (lib : BlueprintLibrary) :
    ∀ (fuel : Nat) (n : String) (path : List String),
      recurse (mapMergeAll lib) fuel n path = recurse lib fuel n path := by
  intro fuel
  induction fuel with
  | zero => intro n path; rfl
  | succ f ih =>
    intro n path
    cases hg : libGet lib n with
    | none =>
      have hg2 : libGet (mapMergeAll lib) n = none := by rw [libGet_mapMerge, hg]; rfl
      cases hl : path.getLast? <;> simp [recurse, hg, hg2, hl]
    | some raw =>
      have hg2 : libGet (mapMergeAll lib) n = some { raw with merge := .merge } := by
        rw [libGet_mapMerge, hg]; rfl
      cases hi : raw.inherit with
      | none => simp [recurse, hg, hg2, hi]
      | some parent =>
        by_cases hp : parent ∈ path
        · simp [recurse, hg, hg2, hi, hp]
        · rw [recurse_step_inherit hg2
            (show ({ raw with merge := MergeMode.merge } : RawBlueprint).inherit = some parent
              from hi) hp,
            recurse_step_inherit hg hi hp, ih]

theorem lookup_mapMerge (lib : BlueprintLibrary) (n : String) :
    lookup (mapMergeAll lib) n = lookup lib n := by
  unfold lookup
  rw [show (mapMergeAll lib).length = lib.length from by simp [mapMergeAll], recurse_mapMerge]

theorem mapMerge_setMergeOf (lib : BlueprintLibrary) (n : String) (m : MergeMode) :
    mapMergeAll (setMergeOf lib n m) = mapMergeAll lib := by
  simp only [mapMergeAll, setMergeOf, List.map_map]
  apply List.map_congr_left
  intro e _
  simp only [Function.comp_apply]
  by_cases he : e.name = n <;> simp [he]

theorem lookup_setMergeOf (lib : BlueprintLibrary) (n : String) (m : MergeMode)
    (target : String) : lookup (setMergeOf lib n m) target = lookup lib target := by
  rw [← lookup_mapMerge (setMergeOf lib n m), mapMerge_setMergeOf, lookup_mapMerge]

/-- C3: For a child entry inheriting a resolvable parent, lookup of the
child yields the parent's resolved component list with the child's
same-named components replacing the parent's in place and the child's new
components appended (stated for well-formed duplicate-free component
names); and the result is unchanged under any value of the child entry's
own merge-mode flag.  The overlay is pure: `lookup` is a function of the
library and cannot mutate it. -/
theorem claim_C3 (lib : BlueprintLibrary) (child pname : String)
    (craw : RawBlueprint) (pb : Blueprint)
    (hc : libGet lib child = some craw) (hi : craw.inherit = some pname)
    (hp : lookup lib pname = .ok pb)
    (h1 : namesNodup pb.components) (h2 : namesNodup craw.components) :
    lookup lib child = .ok ⟨pb.name,
      pb.components.map
        (fun o => ((craw.components.find? (fun c => c.name == o.name)).getD o)) ++
      craw.components.filter
        (fun c => !(pb.components.any (fun o => o.name == c.name)))⟩ ∧
    (∀ m, lookup (setMergeOf lib child m) child = lookup lib child) := by
  constructor
  · have hov := lookup_child_overlay lib child pname craw pb hc hi hp
    rw [hov, mergeComponents_eq_mergeSpec _ _ h1 h2]
    rfl
  · intro m
    exact lookup_setMergeOf lib child m child

/-- C3 witness: `chi` (inserted with Clobber mode) inheriting `par`. -/
theorem claim_C3_witness :
    lookup c3Lib "chi" = .ok ⟨"par",
      [compA1, compA2].map
        (fun o => (([compB1, compB2].find? (fun c => c.name == o.name)).getD o)) ++
      [compB1, compB2].filter
        (fun c => !([compA1, compA2].any (fun o => o.name == c.name)))⟩ ∧
    (∀ m, lookup (setMergeOf c3Lib "chi" m) "chi" = lookup c3Lib "chi") :=
  claim_C3 c3Lib "chi" "par" ⟨"chi", some "par", .clobber, [compB1, compB2]⟩
    ⟨"par", [compA1, compA2]⟩ rfl rfl rfl (by decide) (by decide)

/-! ## Claims on the literal decoder (C4, C8) -/

/-- C4 (code bug): at a char request, the fallback arm of
`KdlAnnotatedLiteralDeser::deserialize_char` forwards to `deserialize_u8`
instead of `deserialize_char`, so an integer literal is never interpreted
as a Unicode scalar value: the char visitor rejects the `visit_u8` call and
in-range integers fail with an invalid-type error (out-of-range ones with
the `u8` conversion error) — while `KdlLiteralDeser::deserialize_char`
right below implements exactly the claimed integer rule and maps 65 to
'A'.  The `(char)`-annotated one-character string rule itself works. -/
theorem claim_C4_code_bug :
    annLit_char ⟨none, .int 65⟩ = .error (.invalidType (.unsigned 65) "char") ∧
    annLit_char ⟨none, .int 128512⟩ = .error .intSize ∧
    litDeser_char (.int 65) = .ok 'A' ∧
    litDeser_char (.int 128512) = .ok (Char.ofNat 128512) ∧
    annLit_char ⟨some "char", .str "A"⟩ = .ok 'A' ∧
    annLit_char ⟨some "char", .str "AB"⟩ = .error .charAnnotationLen ∧
    annLit_char ⟨some "char", .str ""⟩ = .error .charAnnotationLen := by
  refine ⟨by decide, by decide, by decide, by decide, by decide, by decide, by decide⟩

/-- C8: a `(byte)`-annotated one-byte string decodes at a u8 request to
that byte (so `(byte)"A"` gives 65) while the same literal at a string
request gives back `"A"`; a `(byte)`-annotated string of any other length
fails with the byte-annotation-length error, and any other literal falls
through to the plain integer rule. -/
theorem claim_C8 (al : KdlAnnotatedLiteral) :
    annLit_u8 ⟨some "byte", .str "A"⟩ = .ok 65 ∧
    annLit_str ⟨some "byte", .str "A"⟩ = .ok "A" ∧
    (∀ s, al.ann = some "byte" → al.literal = .str s →
      annLit_u8 al =
        (match utf8Bytes s with
          | [b] => .ok (Int.ofNat b)
          | _ => .error .byteAnnotationLen)) ∧
    (¬(al.ann = some "byte" ∧ ∃ s, al.literal = .str s) →
      annLit_u8 al = litDeser_u8 al.literal) := by
  refine ⟨by decide, by decide, ?_, ?_⟩
  · intro s h1 h2
    rcases al with ⟨ann, lit⟩
    simp only at h1 h2
    subst h1
    subst h2
    simp [annLit_u8]
  · intro h
    rcases al with ⟨ann, lit⟩
    cases lit with
    | str s =>
      have hann : ¬ann = some "byte" := by
        intro hh
        exact h ⟨by simpa using hh, s, rfl⟩
      simp [annLit_u8, hann]
    | int i => rfl
    | float f => rfl
    | bool b => rfl
    | null => rfl

/-- C8 witness: the length-failure and integer-fallthrough cases at
concrete inputs. -/
theorem claim_C8_witness :
    annLit_u8 ⟨some "byte", .str "ab"⟩ =
      (match utf8Bytes "ab" with
        | [b] => .ok (Int.ofNat b)
        | _ => .error .byteAnnotationLen) ∧
    annLit_u8 ⟨none, .int 300⟩ = litDeser_u8 (KdlLiteral.int 300) :=
  ⟨(claim_C8 ⟨some "byte", .str "ab"⟩).2.2.1 "ab" rfl rfl,
   (claim_C8 ⟨none, .int 300⟩).2.2.2 (by simp)⟩

/-! ## Claims on the node decoder (C5, C6, C7) -/

/-- C7: on a node with exactly one argument, no properties and no children
block, every primitive-shape request (all integer widths of the
`single_scalar!` list, floats, bool, char, byte, strings, bytes) and the
enum request return exactly the result of decoding the single argument's
annotated literal at that shape. -/
theorem claim_C7 (n : KdlNode) (a : KdlAnnotatedLiteral)
    (h1 : n.arguments = [a]) (h2 : n.properties = []) (h3 : n.children = none) :
    (∀ {α : Type} (f : KdlAnnotatedLiteral → Except DeError α) (msg exp : String),
      singleScalar f msg exp n = f a) ∧
    nodeDeser_u8 n = annLit_u8 a ∧ nodeDeser_u16 n = annLit_u16 a ∧
    nodeDeser_u32 n = annLit_u32 a ∧ nodeDeser_u64 n = annLit_u64 a ∧
    nodeDeser_i8 n = annLit_i8 a ∧ nodeDeser_i16 n = annLit_i16 a ∧
    nodeDeser_i32 n = annLit_i32 a ∧ nodeDeser_i64 n = annLit_i64 a ∧
    nodeDeser_f32 n = annLit_f32 a ∧ nodeDeser_f64 n = annLit_f64 a ∧
    nodeDeser_bool n = annLit_bool a ∧ nodeDeser_char n = annLit_char a ∧
    nodeDeser_str n = annLit_str a ∧ nodeDeser_string n = annLit_string a ∧
    nodeDeser_bytes n = annLit_bytes a ∧
    (∀ exp, nodeDeser_enum exp n = annLit_enum exp a) := by
  have hss : ∀ {α : Type} (f : KdlAnnotatedLiteral → Except DeError α) (msg exp : String),
      singleScalar f msg exp n = f a := by
    intro α f msg exp
    unfold singleScalar
    rw [h1, h2, h3]
    rfl
  have henum : ∀ exp, nodeDeser_enum exp n = annLit_enum exp a := by
    intro exp
    unfold nodeDeser_enum
    rw [h1, h2, h3]
    rfl
  exact ⟨hss, hss _ _ _, hss _ _ _, hss _ _ _, hss _ _ _, hss _ _ _, hss _ _ _, hss _ _ _,
    hss _ _ _, hss _ _ _, hss _ _ _, hss _ _ _, hss _ _ _, hss _ _ _, hss _ _ _, hss _ _ _,
    henum⟩

/-- C7 witness at a concrete one-argument node. -/
theorem claim_C7_witness :
    (∀ {α : Type} (f : KdlAnnotatedLiteral → Except DeError α) (msg exp : String),
      singleScalar f msg exp oneArgNode = f ⟨none, .int 7⟩) ∧
    nodeDeser_u8 oneArgNode = annLit_u8 ⟨none, .int 7⟩ ∧
    nodeDeser_u16 oneArgNode = annLit_u16 ⟨none, .int 7⟩ ∧
    nodeDeser_u32 oneArgNode = annLit_u32 ⟨none, .int 7⟩ ∧
    nodeDeser_u64 oneArgNode = annLit_u64 ⟨none, .int 7⟩ ∧
    nodeDeser_i8 oneArgNode = annLit_i8 ⟨none, .int 7⟩ ∧
    nodeDeser_i16 oneArgNode = annLit_i16 ⟨none, .int 7⟩ ∧
    nodeDeser_i32 oneArgNode = annLit_i32 ⟨none, .int 7⟩ ∧
    nodeDeser_i64 oneArgNode = annLit_i64 ⟨none, .int 7⟩ ∧
    nodeDeser_f32 oneArgNode = annLit_f32 ⟨none, .int 7⟩ ∧
    nodeDeser_f64 oneArgNode = annLit_f64 ⟨none, .int 7⟩ ∧
    nodeDeser_bool oneArgNode = annLit_bool ⟨none, .int 7⟩ ∧
    nodeDeser_char oneArgNode = annLit_char ⟨none, .int 7⟩ ∧
    nodeDeser_str oneArgNode = annLit_str ⟨none, .int 7⟩ ∧
    nodeDeser_string oneArgNode = annLit_string ⟨none, .int 7⟩ ∧
    nodeDeser_bytes oneArgNode = annLit_bytes ⟨none, .int 7⟩ ∧
    (∀ exp, nodeDeser_enum exp oneArgNode = annLit_enum exp ⟨none, .int 7⟩) :=
  claim_C7 oneArgNode ⟨none, .int 7⟩ rfl rfl rfl

/-- C5 counterexample: on the one-argument node `n 7`, a record (struct)
request does NOT behave as decoding the single argument literal: the node
path rejects the arguments ("node with no arguments") while the literal
path rejects the literal's kind ("int") — no scalar forwarding happens. -/
theorem claim_C5_counterexample :
    nodeDeser_struct "struct" (fun _ _ _ => (.error (.visitorError "unused") : Except DeError Unit))
        oneArgNode ≠
      annLit_struct "struct" ⟨none, .int 7⟩ := by decide

/-- C5 amended: a record (struct) request never attempts scalar
forwarding; it forwards straight to the map path (with snake-casing
enabled) which fails whenever the node has any arguments — in particular
on a node with exactly one argument and nothing else — and on an
argument-free node hands the visitor the properties and children. -/
theorem claim_C5_amended {α : Type} (exp : String)
    (onMap : Bool → List (String × KdlAnnotatedLiteral) → Option (List KdlNode) →
      Except DeError α) (n : KdlNode) :
    (n.arguments ≠ [] →
      nodeDeser_struct exp onMap n =
        .error (.invalidType (.other "node with no arguments") exp)) ∧
    (n.arguments = [] → nodeDeser_struct exp onMap n = onMap true n.properties n.children) := by
  constructor
  · intro h
    unfold nodeDeser_struct nodeDeser_mapCore
    rw [if_neg (by simpa using h)]
  · intro h
    unfold nodeDeser_struct nodeDeser_mapCore
    rw [if_pos (by simp [h])]

/-- C5 amended witness: the one-argument node errors at a struct request. -/
theorem claim_C5_witness :
    nodeDeser_struct "struct" (fun _ _ _ => (.ok () : Except DeError Unit)) oneArgNode =
      .error (.invalidType (.other "node with no arguments") "struct") :=
  (claim_C5_amended "struct" _ oneArgNode).1 (by decide)

/-- C6 counterexample: a node with a non-empty argument list AND a children
block (all children named `-`) does NOT fail at a sequence request — the
children are decoded as the sequence and the argument is silently ignored. -/
theorem claim_C6_counterexample :
    nodeDeser_seq "seq" annLit_i64 nodeDeser_i64 dashListNode = .ok [2] := by decide

/-- C6 amended: a node with non-empty arguments and (non-empty properties
or a children block) fails at the self-describing, map, struct, unit,
single-scalar and enum requests with the ambiguous/invalid-shape errors —
but NOT at every request: a sequence request still errors when properties
are non-empty, yet when properties are empty and a children block is
present whose nodes are all named `-`, it succeeds by decoding the
children and ignoring the arguments (and errors only when some child has
another name). -/
theorem claim_C6_amended (n : KdlNode) (hargs : n.arguments ≠ [])
    (hmix : n.properties ≠ [] ∨ n.children ≠ none) :
    (∀ {α : Type} (v : AnyVisitor α), nodeDeser_any v n =
      .error (.invalidType
        (.other "node with arguments, properties/children, or neither (and not both)") v.exp)) ∧
    (∀ {α : Type} (exp : String)
        (onMap : Bool → List (String × KdlAnnotatedLiteral) → Option (List KdlNode) →
          Except DeError α),
      nodeDeser_map exp onMap n = .error (.invalidType (.other "node with no arguments") exp)) ∧
    (∀ {α : Type} (exp : String)
        (onMap : Bool → List (String × KdlAnnotatedLiteral) → Option (List KdlNode) →
          Except DeError α),
      nodeDeser_struct exp onMap n =
        .error (.invalidType (.other "node with no arguments") exp)) ∧
    (∀ {α : Type} (exp : String) (onUnit : Except DeError α),
      nodeDeser_unit exp onUnit n =
        .error (.invalidType (.other "node with arguments or properties or children") exp)) ∧
    (∀ {α : Type} (f : KdlAnnotatedLiteral → Except DeError α) (msg exp : String),
      singleScalar f msg exp n = .error (.invalidType (.other msg) exp)) ∧
    (∀ exp, nodeDeser_enum exp n =
      .error (.invalidType
        (.other "node that isn't exactly one argument deserializable as enum and nothing else")
        exp)) ∧
    (∀ {α : Type} (exp : String) (fA : KdlAnnotatedLiteral → Except DeError α)
        (fN : KdlNode → Except DeError α),
      (n.properties ≠ [] →
        nodeDeser_seq exp fA fN n = .error (.invalidType
          (.other "node invalid as sequence (needs either only args, or children all named `-`)")
          exp)) ∧
      (∀ kids, n.properties = [] → n.children = some kids →
        ((∀ k ∈ kids, k.name = "-") → nodeDeser_seq exp fA fN n = kids.mapM fN) ∧
        ((∃ k ∈ kids, ¬(k.name = "-")) →
          nodeDeser_seq exp fA fN n = .error (.invalidType
            (.other
              "node invalid as sequence (needs either only args, or children all named `-`)")
            exp)))) := by
  have hA : n.arguments.isEmpty = false := by
    cases hn : n.arguments with
    | nil => exact absurd hn hargs
    | cons a t => rfl
  have hPK : (!n.properties.isEmpty || n.children.isSome) = true := by
    rcases hmix with h | h
    · cases hn : n.properties with
      | nil => exact absurd hn h
      | cons p t => rfl
    · cases hn : n.children with
      | none => exact absurd hn h
      | some ks => simp
  refine ⟨?_, ?_, ?_, ?_, ?_, ?_, ?_⟩
  · intro α v
    simp only [nodeDeser_any, hA, hPK, Bool.not_false]
  · intro α exp onMap
    unfold nodeDeser_map nodeDeser_mapCore
    rw [if_neg (by simp [hA])]
  · intro α exp onMap
    unfold nodeDeser_struct nodeDeser_mapCore
    rw [if_neg (by simp [hA])]
  · intro α exp onUnit
    unfold nodeDeser_unit
    rw [if_neg (fun hcond => by simp [hA] at hcond)]
  · intro α f msg exp
    unfold singleScalar
    cases hn : n.arguments with
    | nil => exact absurd hn hargs
    | cons a t =>
      cases t with
      | nil =>
        rcases hmix with h | h
        · cases hp : n.properties with
          | nil => exact absurd hp h
          | cons p pt => rfl
        · cases hc : n.children with
          | none => exact absurd hc h
          | some ks =>
            cases hp : n.properties with
            | nil => rfl
            | cons p pt => rfl
      | cons b t' => rfl
  · intro exp
    unfold nodeDeser_enum
    cases hn : n.arguments with
    | nil => exact absurd hn hargs
    | cons a t =>
      cases t with
      | nil =>
        rcases hmix with h | h
        · cases hp : n.properties with
          | nil => exact absurd hp h
          | cons p pt => rfl
        · cases hc : n.children with
          | none => exact absurd hc h
          | some ks =>
            cases hp : n.properties with
            | nil => rfl
            | cons p pt => rfl
      | cons b t' => rfl
  · intro α exp fA fN
    constructor
    · intro hprops
      unfold nodeDeser_seq
      rw [if_pos ?_]
      · cases hp : n.properties with
        | nil => exact absurd hp hprops
        | cons p pt => rfl
    · intro kids hprops hkids
      constructor
      · intro hall
        cases hn : n.arguments with
        | nil => exact absurd hn hargs
        | cons a t =>
          unfold nodeDeser_seq
          rw [hprops, hkids, hn]
          rw [if_neg (by simp)]
          have hcond : (kids.all fun k => k.name == "-") = true := by
            rw [List.all_eq_true]
            intro k hk
            simp [hall k hk]
          simp [hcond]
      · rintro ⟨k, hk, hkname⟩
        cases hn : n.arguments with
        | nil => exact absurd hn hargs
        | cons a t =>
          unfold nodeDeser_seq
          rw [hprops, hkids, hn]
          rw [if_neg (by simp)]
          have hcond : (kids.all fun k => k.name == "-") = false := by
            cases hc : (kids.all fun k => k.name == "-") with
            | false => rfl
            | true =>
              exfalso
              rw [List.all_eq_true] at hc
              exact hkname (by simpa using hc k hk)
          simp [hcond]

/-- C6 amended witness: a node with an argument and a property errors at
self-describing and sequence requests; a node with an argument and a
dash-children block succeeds at a sequence request. -/
theorem claim_C6_witness :
    nodeDeser_any unitAnyVisitor mixedNode =
      .error (.invalidType
        (.other "node with arguments, properties/children, or neither (and not both)") "any") ∧
    nodeDeser_seq "seq" annLit_i64 nodeDeser_i64 mixedNode =
      .error (.invalidType
        (.other "node invalid as sequence (needs either only args, or children all named `-`)")
        "seq") ∧
    nodeDeser_seq "seq" annLit_i64 nodeDeser_i64 dashListNode =
      [KdlNode.mk "-" [⟨none, .int 2⟩] [] none].mapM nodeDeser_i64 :=
  ⟨(claim_C6_amended mixedNode (by decide) (Or.inl (by decide))).1 unitAnyVisitor,
   ((claim_C6_amended mixedNode (by decide) (Or.inl (by decide))).2.2.2.2.2.2
      "seq" annLit_i64 nodeDeser_i64).1 (by decide),
   (((claim_C6_amended dashListNode (by decide)
        (Or.inr (by simp [dashListNode, KdlNode.children]))).2.2.2.2.2.2
      "seq" annLit_i64 nodeDeser_i64).2 [KdlNode.mk "-" [⟨none, .int 2⟩] [] none]
      rfl rfl).1 (by simp [KdlNode.name])⟩

/-! ## Lemmas: fabrication (C9) -/

/-- The component loop either succeeds with every component decoded and
folded into the builder, or fails at the first bad component, returning
the builder holding exactly the previously decoded components. -/
theorem fabricateComps_spec {C β : Type} (ins : β → C → β)
    (fabs : List (String × (KdlNode → Except DeError C))) :
    ∀ (comps : List KdlNode) (b : β),
      (∀ e b', fabricateComps ins fabs b comps = .error (e, b') →
        ∃ pre node post vals, comps = pre ++ node :: post ∧
          decodeComps fabs pre = .ok vals ∧ b' = vals.foldl ins b ∧
          regDecodeOne fabs node = .error e) ∧
      (∀ b', fabricateComps ins fabs b comps = .ok b' →
        ∃ vals, decodeComps fabs comps = .ok vals ∧ b' = vals.foldl ins b) := by
  intro comps
  induction comps with
  | nil =>
    intro b
    constructor
    · intro e b' h
      simp [fabricateComps] at h
    · intro b' h
      simp only [fabricateComps, Except.ok.injEq] at h
      exact ⟨[], rfl, h.symm⟩
  | cons c rest ih =>
    intro b
    cases hg : assocGet fabs c.name with
    | none =>
      constructor
      · intro e b' h
        simp only [fabricateComps, hg, Except.error.injEq, Prod.mk.injEq] at h
        refine ⟨[], c, rest, [], rfl, rfl, by simp [h.2], ?_⟩
        simp [regDecodeOne, hg, h.1]
      · intro b' h
        simp [fabricateComps, hg] at h
    | some f =>
      cases hf : f c with
      | error err =>
        constructor
        · intro e b' h
          simp only [fabricateComps, hg, hf, Except.error.injEq, Prod.mk.injEq] at h
          refine ⟨[], c, rest, [], rfl, rfl, by simp [h.2], ?_⟩
          simp [regDecodeOne, hg, hf, h.1]
        · intro b' h
          simp [fabricateComps, hg, hf] at h
      | ok v =>
        have hstep : fabricateComps ins fabs b (c :: rest) =
            fabricateComps ins fabs (ins b v) rest := by
          simp [fabricateComps, hg, hf]
        constructor
        · intro e b' h
          rw [hstep] at h
          obtain ⟨pre, node, post, vals, hsplit, hdec, hb', hreg⟩ := ((ih (ins b v)).1) e b' h
          refine ⟨c :: pre, node, post, v :: vals, by rw [hsplit]; rfl, ?_, ?_, hreg⟩
          · simp [decodeComps, regDecodeOne, hg, hf, hdec]
          · simp [hb', List.foldl_cons]
        · intro b' h
          rw [hstep] at h
          obtain ⟨vals, hdec, hb'⟩ := ((ih (ins b v)).2) b' h
          refine ⟨v :: vals, ?_, ?_⟩
          · simp [decodeComps, regDecodeOne, hg, hf, hdec]
          · simp [hb', List.foldl_cons]

/-- C9: `instantiate_catching_builder` returns ownership of the builder on
the success path and on every failure path; on a lookup failure the
builder is returned untouched, on a component failure (unregistered name,
or a decode error wrapped with the failing component's name) the returned
builder already holds every component decoded before the failing one; on
success it holds them all. -/
theorem claim_C9 {C β : Type} (fab : EntityFabricator C) (name : String) (builder : β)
    (ins : β → C → β) :
    (∀ e b', instantiate_catching_builder fab name builder ins = .error (e, b') →
      (∃ le, lookup fab.blueprints name = .err le ∧ e = .blueprintLookupError le ∧
        b' = builder) ∨
      (∃ bp pre node post vals, lookup fab.blueprints name = .ok bp ∧
        bp.components = pre ++ node :: post ∧
        decodeComps fab.fabricators pre = .ok vals ∧
        b' = vals.foldl ins builder ∧
        ((assocGet fab.fabricators node.name = none ∧ e = .noBlueprint node.name) ∨
         (∃ f de, assocGet fab.fabricators node.name = some f ∧ f node = .error de ∧
           e = .deError node.name de)))) ∧
    (∀ b', instantiate_catching_builder fab name builder ins = .ok b' →
      ∃ bp vals, lookup fab.blueprints name = .ok bp ∧
        decodeComps fab.fabricators bp.components = .ok vals ∧
        b' = vals.foldl ins builder) := by
  constructor
  · intro e b' h
    unfold instantiate_catching_builder at h
    cases hl : lookup fab.blueprints name with
    | ok bp =>
      rw [hl] at h
      right
      obtain ⟨pre, node, post, vals, hsplit, hdec, hb', hreg⟩ :=
        ((fabricateComps_spec ins fab.fabricators bp.components builder).1) e b' h
      refine ⟨bp, pre, node, post, vals, rfl, hsplit, hdec, hb', ?_⟩
      cases hg : assocGet fab.fabricators node.name with
      | none =>
        have hval : regDecodeOne fab.fabricators node = .error (.noBlueprint node.name) := by
          simp [regDecodeOne, hg]
        rw [hval] at hreg
        exact Or.inl ⟨rfl, (Except.error.inj hreg).symm⟩
      | some f =>
        cases hf : f node with
        | error de =>
          have hval : regDecodeOne fab.fabricators node = .error (.deError node.name de) := by
            simp [regDecodeOne, hg, hf]
          rw [hval] at hreg
          exact Or.inr ⟨f, de, rfl, hf, (Except.error.inj hreg).symm⟩
        | ok v =>
          have hval : regDecodeOne fab.fabricators node = .ok v := by
            simp [regDecodeOne, hg, hf]
          rw [hval] at hreg
          exact absurd hreg (by simp)
    | err le =>
      rw [hl] at h
      simp only [Except.error.injEq, Prod.mk.injEq] at h
      exact Or.inl ⟨le, rfl, h.1.symm, h.2.symm⟩
    | outOfFuel => exact absurd hl (lookup_ne_outOfFuel _ _)
  · intro b' h
    unfold instantiate_catching_builder at h
    cases hl : lookup fab.blueprints name with
    | ok bp =>
      rw [hl] at h
      obtain ⟨vals, hdec, hb'⟩ :=
        ((fabricateComps_spec ins fab.fabricators bp.components builder).2) b' h
      exact ⟨bp, vals, rfl, hdec, hb'⟩
    | err le => rw [hl] at h; simp at h
    | outOfFuel => exact absurd hl (lookup_ne_outOfFuel _ _)

/-- C9 witness: the unregistered component `bad` fails after `pos` was
already decoded and inserted; the returned builder holds `[1]`. -/
theorem claim_C9_witness :
    (∃ le, lookup c9Fab.blueprints "bp" = .err le ∧
        InstantiationError.noBlueprint "bad" = .blueprintLookupError le ∧
        ([(1 : Int)] : List Int) = ([] : List Int)) ∨
    (∃ bp pre node post vals,
        lookup c9Fab.blueprints "bp" = .ok bp ∧
        bp.components = pre ++ node :: post ∧
        decodeComps c9Fab.fabricators pre = .ok vals ∧
        ([(1 : Int)] : List Int) = vals.foldl (fun b c => b ++ [c]) ([] : List Int) ∧
        ((assocGet c9Fab.fabricators node.name = none ∧
            InstantiationError.noBlueprint "bad" = .noBlueprint node.name) ∨
         (∃ f de, assocGet c9Fab.fabricators node.name = some f ∧ f node = .error de ∧
            InstantiationError.noBlueprint "bad" = .deError node.name de))) :=
  (claim_C9 c9Fab "bp" ([] : List Int) (fun b c => b ++ [c])).1
    (.noBlueprint "bad") [(1 : Int)] rfl
